import Mathlib

/-!
A verification development for the red-black tree / interval tree engine in
`container/rb.go` of gotraceui.

The Go code is a pointer-based red-black tree: every node holds a `parent`
back-pointer and a two-slot `children` array.  We embed it shallowly:

* A node's payload (`key`, `value`, `color`) together with an allocation
  identifier (`id`, standing for the pointer identity of the Go `*RBNode`)
  is a `NodeData`.
* The tree structure is the algebraic `ATree`.
* A Go node *pointer* is a location in the tree.  The upward `parent`
  pointer chain from a location is represented by a zipper context
  (`Frame` / `Ctx`): each frame records the direction the location lies
  under its parent, the parent's `NodeData`, and the sibling subtree.
  This is the standard faithful embedding of a coherent parent/child
  pointer structure; `splitAt`/`plug` convert between a whole tree plus a
  path and a context plus a focused subtree.
* The `AfterMove` hook of the Go `RBTree` is a function parameter `Hook`;
  `idHook` models a tree whose `AfterMove` field is `nil`, and `hookIT`
  models the hook wired up in the repository's `main` for the interval
  tree.
* Fallible steps (the Go code would dereference a nil pointer) return
  `Option`.
-/

set_option linter.unusedVariables false

inductive Color where
  | red
  | black
deriving DecidableEq, Repr

inductive Dir where
  | left
  | right
deriving DecidableEq, Repr

/-- Go indexes children by `Direction`; `1-dir` is the opposite slot. -/
def Dir.flip : Dir → Dir
  | Dir.left => Dir.right
  | Dir.right => Dir.left

/-- The payload of a Go `RBNode`: key, value, color, plus the allocation
identifier standing for the node's pointer identity. -/
structure NodeData (K V : Type) where
  id : Nat
  key : K
  value : V
  color : Color
deriving DecidableEq, Repr

/-- Tree structure: each Go node owns up to two children. -/
inductive ATree (K V : Type) where
  | nil : ATree K V
  | node (data : NodeData K V) (l r : ATree K V) : ATree K V
deriving DecidableEq, Repr

namespace RB

variable {K V : Type}

/-- `childOf t d` is `t.children[d]`. -/
def childOf : ATree K V → Dir → ATree K V
  | ATree.nil, _ => ATree.nil
  | ATree.node _ l _, Dir.left => l
  | ATree.node _ _ r, Dir.right => r

/-- `withChild t d c` overwrites `t.children[d] = c`. -/
def withChild : ATree K V → Dir → ATree K V → ATree K V
  | ATree.nil, _, _ => ATree.nil
  | ATree.node dat l r, Dir.left, c => ATree.node dat c r
  | ATree.node dat l _, Dir.right, c => ATree.node dat l c

/-- One step of the parent chain of a location: the location sits in
direction `d` under a parent with payload `data`, whose other child is
`sib`. -/
structure Frame (K V : Type) where
  d : Dir
  data : NodeData K V
  sib : ATree K V
deriving DecidableEq, Repr

/-- The whole parent chain of a location, innermost parent first. -/
abbrev Ctx (K V : Type) := List (Frame K V)

/-- Reattach a subtree under its immediate parent frame. -/
def frameFill (f : Frame K V) (t : ATree K V) : ATree K V :=
  match f.d with
  | Dir.left => ATree.node f.data t f.sib
  | Dir.right => ATree.node f.data f.sib t

/-- Rebuild the whole tree from a context and a focused subtree. -/
def plug : Ctx K V → ATree K V → ATree K V
  | [], t => t
  | f :: c, t => plug c (frameFill f t)

/-- The root-to-focus path described by a context. -/
def pathOf (c : Ctx K V) : List Dir :=
  (c.map Frame.d).reverse

/-- Follow a root-to-node path, returning the parent chain and the
subtree there (`none` if the path walks into an absent child). -/
def splitAt : ATree K V → List Dir → Option (Ctx K V × ATree K V)
  | t, [] => some ([], t)
  | ATree.nil, _ :: _ => none
  | ATree.node dat l r, Dir.left :: p =>
    (splitAt l p).map (fun cs => (cs.1 ++ [⟨Dir.left, dat, r⟩], cs.2))
  | ATree.node dat l r, Dir.right :: p =>
    (splitAt r p).map (fun cs => (cs.1 ++ [⟨Dir.right, dat, l⟩], cs.2))

/-- `pd.id` of the node a context's head frame describes: the pointer
`x.parent` as an identifier (`none` is Go's nil). -/
def ctxHeadId : Ctx K V → Option Nat
  | [] => none
  | f :: _ => some f.data.id

/-- The Go `RBTree` struct: a root.  `nextId` is the allocation counter
backing pointer identities; the `AfterMove` field is modeled as the
`Hook` parameter of the operations. -/
structure RBTree (K V : Type) where
  Root : ATree K V
  nextId : Nat
deriving DecidableEq, Repr

/-- An invocation of the `AfterMove` hook: the arguments
`(oldParent, node)` passed by `rotate`, as pointer identities. -/
structure Event where
  oldParent : Option Nat
  moved : Nat
deriving DecidableEq, Repr

/-- The `AfterMove` callback: it may rewrite the whole tree (in Go it
mutates through pointers), given the two argument identities. -/
abbrev Hook (K V : Type) := ATree K V → Option Nat → Nat → ATree K V

/-- A `RBTree` whose `AfterMove` field is nil. -/
def idHook : Hook K V := fun t _ _ => t

/-- `RBTree.Search`, translated line by line.  The Go loop variable `x` is
the focused subtree, `p` its path from the root (initially `[]` at the
root), and `dir` the mutable `dir` variable (zero value `Left`).  The
`switch k.Compare(x.key)` matches the literals `-1`, `0`, `1` only; any
other comparator result leaves `dir` unchanged (fall-through), so the
walk continues through `x.children[dir]` with the stale `dir`.  Each
non-returning switch outcome is followed by the same
`child := x.children[dir]; if child == nil { return x, false, dir }`
step, spelled out per branch here. -/
def SearchLoop (cmp : K → K → Int) (k : K) :
    ATree K V → List Dir → Dir → (Option (List Dir) × Bool × Dir)
  | ATree.nil, _, dir => (none, false, dir)
  | ATree.node dat l r, p, dir =>
    if cmp k dat.key = 0 then
      (some p, true, Dir.left)
    else if cmp k dat.key = -1 then
      match l with
      | ATree.nil => (some p, false, Dir.left)
      | ATree.node d2 l2 r2 =>
        SearchLoop cmp k (ATree.node d2 l2 r2) (p ++ [Dir.left]) Dir.left
    else if cmp k dat.key = 1 then
      match r with
      | ATree.nil => (some p, false, Dir.right)
      | ATree.node d2 l2 r2 =>
        SearchLoop cmp k (ATree.node d2 l2 r2) (p ++ [Dir.right]) Dir.right
    else
      match dir with
      | Dir.left =>
        match l with
        | ATree.nil => (some p, false, Dir.left)
        | ATree.node d2 l2 r2 =>
          SearchLoop cmp k (ATree.node d2 l2 r2) (p ++ [Dir.left]) Dir.left
      | Dir.right =>
        match r with
        | ATree.nil => (some p, false, Dir.right)
        | ATree.node d2 l2 r2 =>
          SearchLoop cmp k (ATree.node d2 l2 r2) (p ++ [Dir.right]) Dir.right

/-- `RBTree.Search`: returns the located node (as a path; `none` on an
empty tree, Go's `nil, false, 0`), the `found` flag, and the child slot. -/
def Search (cmp : K → K → Int) (t : ATree K V) (k : K) :
    Option (List Dir) × Bool × Dir :=
  match t with
  | ATree.nil => (none, false, Dir.left)
  | ATree.node dat l r => SearchLoop cmp k (ATree.node dat l r) [] Dir.left

/-- `RBTree.rotate`, translated line by line.  The rotated node `P` is the
focus, its parent chain is `c` (so `G = P.parent` is the head of `c`,
updated implicitly by the rebuild that `plug` performs, matching the Go
`G.children[child] = S` / `T.Root = S` lines).  `S := P.children[1-dir]`;
if `S` is absent the Go code dereferences a nil pointer: `none`.
After the pointer surgery the hook is invoked as
`AfterMove(oldParent, P)` with `oldParent := P.parent` captured before the
rotation; the context is re-read afterwards because the hook may have
rewritten values along the parent chain. -/
def rotate (hook : Hook K V) (c : Ctx K V) (P : ATree K V) (d : Dir) :
    Option (Ctx K V × ATree K V × Event) :=
  match P with
  | ATree.nil => none
  | ATree.node pd pl pr =>
    let S := childOf (ATree.node pd pl pr) d.flip
    match S with
    | ATree.nil => none
    | ATree.node sd sl sr =>
      let C := childOf (ATree.node sd sl sr) d
      let P' := withChild (ATree.node pd pl pr) d.flip C
      let S' := withChild (ATree.node sd sl sr) d P'
      let ev : Event := ⟨ctxHeadId c, pd.id⟩
      let t' := hook (plug c S') ev.oldParent ev.moved
      match splitAt t' (pathOf c) with
      | some cs => some (cs.1, cs.2, ev)
      | none => none

/-- Recolor the root of a subtree (a Go `x.color = c` assignment). -/
def setRootColor : ATree K V → Color → ATree K V
  | ATree.nil, _ => ATree.nil
  | ATree.node dat l r, c => ATree.node ⟨dat.id, dat.key, dat.value, c⟩ l r

/-- `U == nil || U.color == Black`. -/
def isBlackOrNil : ATree K V → Bool
  | ATree.nil => true
  | ATree.node dat _ _ => dat.color = Color.black

/-- The fixup loop of `RBTree.insert` (the Go code after the node has been
linked in), translated case by case.  The loop keeps the current node `N`
as the focus `n` and its parent chain as the context, so `P` is the head
frame `f1`, `G = P.parent` is the second frame `f2`,
`dir = P.childDir()` is `f2.d`, and the uncle `U = G.children[1-dir]` is
`f2.sib`.

* `P.color == Black` → return (plug the tree back together).
* `G == nil` → `P.color = Black`, return.
* uncle black or absent → if `N == P.children[1-dir]` first
  `rotate(P, dir)` (then `N = P; P = G.children[dir]`, which is the root
  of the rotated subtree); then `rotate(G, 1-dir)`,
  `P.color = Black; G.color = Red`, return.  After `rotate(G, 1-dir)` the
  node `P` is the root of the new subtree and `G` its child opposite
  `dir`, which is where the recolorings are applied.
* uncle red → `P.color = Black; U.color = Black; G.color = Red;
  N = G`; continue the loop (`break` when the new `N` has no parent,
  which is the `[]` context case).

Failures (`none`) are the nil-pointer dereferences inside `rotate`. -/
def insertFix (hook : Hook K V) : Ctx K V → ATree K V → Option (ATree K V × List Event)
  | [], n => some (n, [])
  | f1 :: c1, n =>
    if f1.data.color = Color.black then
      some (plug (f1 :: c1) n, [])
    else
      match c1 with
      | [] =>
        some (frameFill ⟨f1.d, ⟨f1.data.id, f1.data.key, f1.data.value, Color.black⟩, f1.sib⟩ n, [])
      | f2 :: c2 =>
        let dir := f2.d
        let U := f2.sib
        if isBlackOrNil U then
          let inner : Option (Ctx K V × ATree K V × List Event) :=
            if f1.d = dir.flip then
              match rotate hook (f2 :: c2) (frameFill f1 n) dir with
              | some (c', S', ev) => some (c', S', [ev])
              | none => none
            else
              some (f2 :: c2, frameFill f1 n, [])
          match inner with
          | none => none
          | some ([], _, _) => none
          | some (f2' :: c2', Psub, evs1) =>
            match rotate hook c2' (frameFill f2' Psub) dir.flip with
            | none => none
            | some (c2'', R, ev2) =>
              let R1 := setRootColor R Color.black
              let R2 := withChild R1 dir.flip (setRootColor (childOf R1 dir.flip) Color.red)
              some (plug c2'' R2, evs1 ++ [ev2])
        else
          let Psub := frameFill ⟨f1.d, ⟨f1.data.id, f1.data.key, f1.data.value, Color.black⟩, f1.sib⟩ n
          let n' := frameFill ⟨f2.d, ⟨f2.data.id, f2.data.key, f2.data.value, Color.red⟩,
            setRootColor U Color.black⟩ Psub
          insertFix hook c2 n'

/-- `RBTree.Insert`, translated line by line.  Returns the updated tree,
the pointer identity of the returned node, and the list of `AfterMove`
invocations.

* Empty tree: `NewRBNode(k, v)` then `T.insert(N, nil, 0)`, which colors
  `N` red and makes it the root.
* Key found by `Search`: `P.value = v`, return `P` (no structural change,
  no allocation, no hook).
* Otherwise link a fresh red node under the located parent in the
  indicated direction (`P.children[dir] = N`) and run the fixup loop. -/
def Insert (hook : Hook K V) (cmp : K → K → Int) (t : RBTree K V) (k : K) (v : V) :
    Option (RBTree K V × Nat × List Event) :=
  match t.Root with
  | ATree.nil =>
    some (⟨ATree.node ⟨t.nextId, k, v, Color.red⟩ ATree.nil ATree.nil, t.nextId + 1⟩,
      t.nextId, [])
  | ATree.node rdat rl rr =>
    match Search cmp (ATree.node rdat rl rr) k with
    | (some p, true, _) =>
      match splitAt t.Root p with
      | some (c, ATree.node dat l r) =>
        some (⟨plug c (ATree.node ⟨dat.id, dat.key, v, dat.color⟩ l r), t.nextId⟩, dat.id, [])
      | _ => none
    | (some p, false, dir) =>
      match splitAt t.Root p with
      | some (c, ATree.node pd pl pr) =>
        let N := ATree.node (⟨t.nextId, k, v, Color.red⟩ : NodeData K V) ATree.nil ATree.nil
        let f : Frame K V := ⟨dir, pd, childOf (ATree.node pd pl pr) dir.flip⟩
        match insertFix hook (f :: c) N with
        | some (t', evs) => some (⟨t', t.nextId + 1⟩, t.nextId, evs)
        | none => none
      | _ => none
    | (none, _, _) => none

/-- Fold a sequence of insertions from a starting tree (`none` as soon as
one insertion faults). -/
def foldInsert (hook : Hook K V) (cmp : K → K → Int) :
    RBTree K V → List (K × V) → Option (RBTree K V)
  | t, [] => some t
  | t, (k, v) :: ops =>
    match Insert hook cmp t k v with
    | some (t', _, _) => foldInsert hook cmp t' ops
    | none => none

/-- The empty tree (`RBTree{}` zero value). -/
def emptyT : RBTree K V := ⟨ATree.nil, 0⟩

/-- The root's pointer identity, if the tree is non-empty. -/
def rootIdOf : ATree K V → Option Nat
  | ATree.nil => none
  | ATree.node dat _ _ => some dat.id

/-- The root's color, if the tree is non-empty. -/
def rootColorOf : ATree K V → Option Color
  | ATree.nil => none
  | ATree.node dat _ _ => some dat.color

/-- A valid total-order three-way comparator that returns exactly `-1`,
`0` or `1` (the literals the Go `switch` in `Search` matches on). -/
structure LawfulCmp (cmp : K → K → Int) : Prop where
  range : ∀ a b, cmp a b = -1 ∨ cmp a b = 0 ∨ cmp a b = 1
  eq_zero : ∀ a b, cmp a b = 0 ↔ a = b
  asymm : ∀ a b, cmp a b = -1 ↔ cmp b a = 1
  lt_trans : ∀ a b c, cmp a b = -1 → cmp b c = -1 → cmp a c = -1


end RB

open RB

/-- `Int.Compare` from the source (`type Int int`). -/
def cmpInt (n o : Int) : Int :=
  if n < o then -1 else if n = o then 0 else 1

/-- A comparator on `Int` that realizes the same total order as `cmpInt`
but signals with `-2`, `0`, `2`: a sign-valid three-way comparison that
avoids the literals `-1` and `1` the `Search` switch matches on. -/
def cmp2 (a b : Int) : Int := 2 * cmpInt a b

/-- The `Interval` key type of the interval tree. -/
structure GoInterval where
  Min : Int
  Max : Int
deriving DecidableEq, Repr

/-- The `Value` type of the interval tree: the derived subtree statistic
plus the payload. -/
structure IValue where
  MaxSubtree : Int
  Value : String
deriving DecidableEq, Repr

/-- `Interval.Compare`: lexicographic by `(Min, Max)`. -/
def cmpInterval (ival oval : GoInterval) : Int :=
  if ival.Min < oval.Min then -1
  else if ival.Min > oval.Min then 1
  else if ival.Max < oval.Max then -1
  else if ival.Max > oval.Max then 1
  else 0

/-- Go's `math.MinInt` (64-bit). -/
def goMinInt : Int := -9223372036854775808

namespace IT

/-- The max-fold of `updateAug`: `max := vs[0]; for _, v := range vs[1:]
{ if v > max { max = v } }` applied to `vs = [vs0, vs1, vs2]`. -/
def vsMax (vs0 vs1 vs2 : Int) : Int :=
  if vs2 > (if vs1 > vs0 then vs1 else vs0) then vs2
  else (if vs1 > vs0 then vs1 else vs0)

/-- `IntervalTree.updateAug`, translated line by line over a located node:
the focus `n` is the argument node (`ATree.nil` is a nil argument) and
`c` its parent chain.  `vs[0]`/`vs[1]` start at `math.MinInt` and are
overwritten by the children's `MaxSubtree`; `vs[2]` is `n.key.Max`; `max`
is folded exactly as the Go loop does.  On a change the new value is
stored and the recursion continues at the parent; the recursive result's
tree is kept and its flag discarded (`return true`). -/
def updateAug : Ctx GoInterval IValue → ATree GoInterval IValue →
    ATree GoInterval IValue × Bool
  | c, ATree.nil => (plug c ATree.nil, false)
  | [], ATree.node dat l r =>
    if vsMax
        (match l with
         | ATree.nil => goMinInt
         | ATree.node dl _ _ => dl.value.MaxSubtree)
        (match r with
         | ATree.nil => goMinInt
         | ATree.node dr _ _ => dr.value.MaxSubtree)
        dat.key.Max ≠ dat.value.MaxSubtree then
      (ATree.node ⟨dat.id, dat.key,
        ⟨vsMax
          (match l with
           | ATree.nil => goMinInt
           | ATree.node dl _ _ => dl.value.MaxSubtree)
          (match r with
           | ATree.nil => goMinInt
           | ATree.node dr _ _ => dr.value.MaxSubtree)
          dat.key.Max, dat.value.Value⟩, dat.color⟩ l r, true)
    else
      (plug [] (ATree.node dat l r), false)
  | f :: c', ATree.node dat l r =>
    if vsMax
        (match l with
         | ATree.nil => goMinInt
         | ATree.node dl _ _ => dl.value.MaxSubtree)
        (match r with
         | ATree.nil => goMinInt
         | ATree.node dr _ _ => dr.value.MaxSubtree)
        dat.key.Max ≠ dat.value.MaxSubtree then
      ((updateAug c' (frameFill f
        (ATree.node ⟨dat.id, dat.key,
          ⟨vsMax
            (match l with
             | ATree.nil => goMinInt
             | ATree.node dl _ _ => dl.value.MaxSubtree)
            (match r with
             | ATree.nil => goMinInt
             | ATree.node dr _ _ => dr.value.MaxSubtree)
            dat.key.Max, dat.value.Value⟩, dat.color⟩ l r))).1, true)
    else
      (plug (f :: c') (ATree.node dat l r), false)

/-- The `MaxSubtree` of a child, or `math.MinInt` if the child is absent
(the spec's `leftChild.maxSubtreeEndpoint-or-MinInt`). -/
def orMinInt : ATree GoInterval IValue → Int
  | ATree.nil => goMinInt
  | ATree.node dat _ _ => dat.value.MaxSubtree

/-- `recomputeAugmentation` as the specification words it: absent node ⇒
no-op returning false; otherwise `candidate = max(node.key.max,
leftChild.maxSubtreeEndpoint-or-MinInt,
rightChild.maxSubtreeEndpoint-or-MinInt)`; if `candidate` differs from
the stored statistic, store it, recurse on the parent and return true;
otherwise return false immediately. -/
def updateAugSpec : Ctx GoInterval IValue → ATree GoInterval IValue →
    ATree GoInterval IValue × Bool
  | c, ATree.nil => (plug c ATree.nil, false)
  | [], ATree.node dat l r =>
    if max dat.key.Max (max (orMinInt l) (orMinInt r)) ≠ dat.value.MaxSubtree then
      (ATree.node ⟨dat.id, dat.key,
        ⟨max dat.key.Max (max (orMinInt l) (orMinInt r)), dat.value.Value⟩, dat.color⟩ l r,
        true)
    else
      (plug [] (ATree.node dat l r), false)
  | f :: c', ATree.node dat l r =>
    if max dat.key.Max (max (orMinInt l) (orMinInt r)) ≠ dat.value.MaxSubtree then
      ((updateAugSpec c' (frameFill f
        (ATree.node ⟨dat.id, dat.key,
          ⟨max dat.key.Max (max (orMinInt l) (orMinInt r)), dat.value.Value⟩,
          dat.color⟩ l r))).1, true)
    else
      (plug (f :: c') (ATree.node dat l r), false)

/-- Locate a node by its pointer identity. -/
def findPathById : ATree GoInterval IValue → Nat → Option (List Dir)
  | ATree.nil, _ => none
  | ATree.node dat l r, i =>
    if dat.id = i then some []
    else
      match findPathById l i with
      | some p => some (Dir.left :: p)
      | none =>
        match findPathById r i with
        | some p => some (Dir.right :: p)
        | none => none

/-- `t.updateAug(x)` where `x` is a node pointer (`none` = nil): locate
the node and run `updateAug` there. -/
def updateAugById (t : ATree GoInterval IValue) (oi : Option Nat) :
    ATree GoInterval IValue × Bool :=
  match oi with
  | none => (t, false)
  | some i =>
    match findPathById t i with
    | none => (t, false)
    | some p =>
      match splitAt t p with
      | some (c, n) => updateAug c n
      | none => (t, false)

/-- The `AfterMove` hook wired up in the repository's `main`:
`for t.updateAug(oldParent) || t.updateAug(node) { }` with Go's
short-circuit `||` (fuel-bounded; the fuel is far beyond any run this
file evaluates). -/
def hookLoop : Nat → ATree GoInterval IValue → Option Nat → Nat →
    ATree GoInterval IValue
  | 0, t, _, _ => t
  | fuel + 1, t, op, nid =>
    let r1 := updateAugById t op
    if r1.2 then hookLoop fuel r1.1 op nid
    else
      let r2 := updateAugById r1.1 (some nid)
      if r2.2 then hookLoop fuel r2.1 op nid
      else r2.1

/-- The interval tree's hook. -/
def hookIT : Hook GoInterval IValue := fun t op nid => hookLoop 1000 t op nid

/-- `IntervalTree.Insert`: delegate to the engine's `Insert` with the
composite key and `Value{MaxSubtree: max}`, then `t.updateAug(n.parent)`
(the parent of the returned node; a root has no parent and the call is a
no-op). -/
def Insert (t : RBTree GoInterval IValue) (mn mx : Int) (s : String) :
    Option (RBTree GoInterval IValue × Nat) :=
  match RB.Insert hookIT cmpInterval t ⟨mn, mx⟩ ⟨mx, s⟩ with
  | none => none
  | some (t', nid, _) =>
    match findPathById t'.Root nid with
    | none => none
    | some [] => some (t', nid)
    | some (d :: p) =>
      match splitAt t'.Root (d :: p).dropLast with
      | some (c, pn) => some (⟨(updateAug c pn).1, t'.nextId⟩, nid)
      | none => none

/-- Fold a sequence of `IntervalTree.Insert` calls. -/
def foldIT : RBTree GoInterval IValue → List (Int × Int × String) →
    Option (RBTree GoInterval IValue)
  | t, [] => some t
  | t, (mn, mx, s) :: ops =>
    match Insert t mn mx s with
    | some (t', _) => foldIT t' ops
    | none => none

end IT

namespace RB

/-- A writer sink: the strings written so far, plus a schedule of write
errors the sink will raise (`true` = this write fails).  `wWrite` models
`w.Write`: it returns the error outcome, which the caller may discard. -/
structure Writer where
  out : List String
  errs : List Bool
deriving DecidableEq, Repr

def wWrite (w : Writer) (s : String) : Writer × Bool :=
  (⟨w.out ++ [s], w.errs.tail⟩, w.errs.headD false)

variable {K V : Type}

/-- The `p` closure of `RBNode.Dot`: `w.Write([]byte(s));
w.Write([]byte("\n"))`, both error results discarded. -/
def dotP (w : Writer) (s : String) : Writer :=
  let w1 := (wWrite w s).1
  (wWrite w1 "\n").1

/-- The recursive `node` closure of `RBNode.Dot`: emits the node's own
line (label built from key, value and the optional `meta` annotation,
color attribute from the node's color), then for each child slot in
index order either an invisible placeholder pair of lines (absent child)
or the child's own output followed by an edge line.  Pointer addresses
(`%p`) are rendered from the node identities. -/
def dotNode (ks : K → String) (vstr : V → String)
    (meta : Option (ATree K V → String)) : ATree K V → Writer → Writer
  | ATree.nil, w => w
  | ATree.node dat l r, w =>
    let c := if dat.color = Color.black then "black" else "red"
    let label0 := ks dat.key ++ " = " ++ vstr dat.value
    let label := match meta with
      | none => label0
      | some m => label0 ++ "\n" ++ m (ATree.node dat l r)
    let pn := "p" ++ toString dat.id
    let w := dotP w (pn ++ " [label=\"" ++ label ++ "\", color=" ++ c ++ "];")
    let w := match l with
      | ATree.nil =>
        let w := dotP w (pn ++ "c0 [label=nil, style=invis];")
        dotP w (pn ++ " -> " ++ pn ++ "c0 [style=invis];")
      | ATree.node d2 l2 r2 =>
        let w := dotNode ks vstr meta (ATree.node d2 l2 r2) w
        dotP w (pn ++ " -> p" ++ toString d2.id ++ ";")
    match r with
    | ATree.nil =>
      let w := dotP w (pn ++ "c1 [label=nil, style=invis];")
      dotP w (pn ++ " -> " ++ pn ++ "c1 [style=invis];")
    | ATree.node d2 l2 r2 =>
      let w := dotNode ks vstr meta (ATree.node d2 l2 r2) w
      dotP w (pn ++ " -> p" ++ toString d2.id ++ ";")

/-- `RBNode.Dot`: the exporter.  It only reads the tree and returns the
writer's final state; every error result of `w.Write` is discarded. -/
def Dot (ks : K → String) (vstr : V → String)
    (meta : Option (ATree K V → String)) (N : ATree K V) (w : Writer) : Writer :=
  let w := dotP w "digraph \x7b"
  let w := dotP w "graph [ordering=out];"
  let w := dotNode ks vstr meta N w
  dotP w "\x7d"

/-! ### Invariant checkers (decidable formulations of the spec's
data-model invariants) -/

/-- Black-height of a subtree: `some h` when every path from the root to
an absent-child position passes through exactly `h` black nodes, `none`
when two such paths disagree anywhere in the subtree. -/
def bhOf : ATree K V → Option Nat
  | ATree.nil => some 0
  | ATree.node dat l r =>
    match bhOf l, bhOf r with
    | some a, some b =>
      if a = b then some (a + (if dat.color = Color.black then 1 else 0)) else none
    | _, _ => none

/-- No red node has a red child. -/
def noRR : ATree K V → Bool
  | ATree.nil => true
  | ATree.node dat l r =>
    noRR l && noRR r &&
      (if dat.color = Color.red then isBlackOrNil l && isBlackOrNil r else true)

/-- All keys of a subtree, in order. -/
def keysOf : ATree K V → List K
  | ATree.nil => []
  | ATree.node dat l r => keysOf l ++ dat.key :: keysOf r

/-- The binary-search-tree ordering invariant, worded as the spec does:
for every node, every key in its left subtree compares less than the
node's key and every key in its right subtree compares greater. -/
def orderedB (cmp : K → K → Int) : ATree K V → Bool
  | ATree.nil => true
  | ATree.node dat l r =>
    (keysOf l).all (fun k2 => cmp k2 dat.key = -1) &&
    (keysOf r).all (fun k2 => cmp k2 dat.key = 1) &&
    orderedB cmp l && orderedB cmp r

/-- The spec's invariant 3: the root, if present, is black. -/
def rootBlackB : ATree K V → Bool
  | ATree.nil => true
  | ATree.node dat _ _ => dat.color = Color.black

/-- The interval-tree augmentation invariant (spec invariant 5): every
node's `MaxSubtree` equals the maximum of its own interval's `Max` and
the `MaxSubtree` of each present child. -/
def augOKB : ATree GoInterval IValue → Bool
  | ATree.nil => true
  | ATree.node dat l r =>
    (dat.value.MaxSubtree = max dat.key.Max (max (IT.orMinInt l) (IT.orMinInt r))) &&
    augOKB l && augOKB r

end RB

namespace RB

variable {K V : Type}

/-! ### Context-invariant definitions used by the preservation proofs -/

/-- The contribution of a node's color to black heights. -/
def colorBit (c : Color) : Nat := if c = Color.black then 1 else 0

/-- Black-height consistency of a parent chain: walking outward from a
focus whose subtree has black-height `h`, every sibling has the matching
black-height. -/
def ctxBH : Ctx K V → Nat → Prop
  | [], _ => True
  | f :: c, h => bhOf f.sib = some h ∧ ctxBH c (h + colorBit f.data.color)

/-- The head frame's color is black (or there is no frame). -/
def headBlack : Ctx K V → Prop
  | [] => True
  | f :: _ => f.data.color = Color.black

/-- The head frame's color is red. -/
def headRed : Ctx K V → Prop
  | [] => False
  | f :: _ => f.data.color = Color.red

/-- Red-condition of a parent chain: every sibling is internally valid,
and a red ancestor has a black-rooted sibling and a black parent. -/
def ctxRR : Ctx K V → Prop
  | [] => True
  | f :: c => noRR f.sib = true ∧
      (f.data.color = Color.red → isBlackOrNil f.sib = true ∧ headBlack c) ∧
      ctxRR c

/-- `k` is above the (optional) strict lower bound. -/
def loOK (cmp : K → K → Int) : Option K → K → Prop
  | none, _ => True
  | some a, k => cmp a k = -1

/-- `k` is below the (optional) strict upper bound. -/
def hiOK (cmp : K → K → Int) : K → Option K → Prop
  | _, none => True
  | k, some b => cmp k b = -1

/-- The binary-search-tree ordering relative to open bounds. -/
def OrdIn (cmp : K → K → Int) : Option K → Option K → ATree K V → Prop
  | _, _, ATree.nil => True
  | lo, hi, ATree.node dat l r =>
    loOK cmp lo dat.key ∧ hiOK cmp dat.key hi ∧
    OrdIn cmp lo (some dat.key) l ∧ OrdIn cmp (some dat.key) hi r

/-- Ordering consistency of a parent chain: outer bounds `lo0, hi0` are
refined frame by frame down to the focus bounds `lo, hi`. -/
def ctxOrdB (cmp : K → K → Int) :
    Ctx K V → Option K → Option K → Option K → Option K → Prop
  | [], lo0, hi0, lo, hi => lo = lo0 ∧ hi = hi0
  | f :: c, lo0, hi0, lo, hi => ∃ lo' hi',
      ctxOrdB cmp c lo0 hi0 lo' hi' ∧
      loOK cmp lo' f.data.key ∧ hiOK cmp f.data.key hi' ∧
      (match f.d with
       | Dir.left => lo = lo' ∧ hi = some f.data.key ∧
           OrdIn cmp (some f.data.key) hi' f.sib
       | Dir.right => lo = some f.data.key ∧ hi = hi' ∧
           OrdIn cmp lo' (some f.data.key) f.sib)

end RB

/-! ## Lemmas -/

namespace RB

variable {K V : Type}

theorem pathOf_cons (f : Frame K V) (c : Ctx K V) :
    pathOf (f :: c) = pathOf c ++ [f.d] := by
  simp [pathOf]

theorem plug_append (c1 c2 : Ctx K V) (t : ATree K V) :
    plug (c1 ++ c2) t = plug c2 (plug c1 t) := by
  induction c1 generalizing t with
  | nil => rfl
  | cons f c ih => simp [plug, ih]

theorem frameFill_eq (f : Frame K V) (t : ATree K V) :
    frameFill f t = ATree.node f.data (childOf (frameFill f t) Dir.left)
      (childOf (frameFill f t) Dir.right) := by
  cases hd : f.d <;> simp [frameFill, hd, childOf]

theorem splitAt_snoc_some {t : ATree K V} {p : List Dir} {c : Ctx K V}
    {dat : NodeData K V} {l r : ATree K V} (d : Dir)
    (h : splitAt t p = some (c, ATree.node dat l r)) :
    splitAt t (p ++ [d]) =
      some (⟨d, dat, childOf (ATree.node dat l r) d.flip⟩ :: c,
        childOf (ATree.node dat l r) d) := by
  induction p generalizing t c with
  | nil =>
    simp [splitAt] at h
    obtain ⟨rfl, rfl⟩ := h
    cases d <;> simp [splitAt, childOf, Dir.flip]
  | cons d0 p ih =>
    cases t with
    | nil => simp [splitAt] at h
    | node dat0 l0 r0 =>
      cases d0 with
      | left =>
        simp only [splitAt, Option.map_eq_some'] at h
        obtain ⟨⟨c1, s1⟩, h1, h2⟩ := h
        simp only [Prod.mk.injEq] at h2
        obtain ⟨h2, h3⟩ := h2
        subst h3
        have hrec := ih (t := l0) (c := c1) h1
        have hstep : splitAt (ATree.node dat0 l0 r0) (Dir.left :: (p ++ [d])) =
            (splitAt l0 (p ++ [d])).map
              (fun cs => (cs.1 ++ [⟨Dir.left, dat0, r0⟩], cs.2)) := rfl
        rw [List.cons_append, hstep, hrec]
        simp [← h2]
      | right =>
        simp only [splitAt, Option.map_eq_some'] at h
        obtain ⟨⟨c1, s1⟩, h1, h2⟩ := h
        simp only [Prod.mk.injEq] at h2
        obtain ⟨h2, h3⟩ := h2
        subst h3
        have hrec := ih (t := r0) (c := c1) h1
        have hstep : splitAt (ATree.node dat0 l0 r0) (Dir.right :: (p ++ [d])) =
            (splitAt r0 (p ++ [d])).map
              (fun cs => (cs.1 ++ [⟨Dir.right, dat0, l0⟩], cs.2)) := rfl
        rw [List.cons_append, hstep, hrec]
        simp [← h2]

theorem plug_of_splitAt {t : ATree K V} {p : List Dir} {c : Ctx K V}
    {s : ATree K V} (h : splitAt t p = some (c, s)) : plug c s = t := by
  induction p generalizing t c s with
  | nil =>
    simp [splitAt] at h
    obtain ⟨rfl, rfl⟩ := h
    rfl
  | cons d0 p ih =>
    cases t with
    | nil => simp [splitAt] at h
    | node dat0 l0 r0 =>
      cases d0 with
      | left =>
        simp only [splitAt, Option.map_eq_some'] at h
        obtain ⟨⟨c1, s1⟩, h1, h2⟩ := h
        simp only [Prod.mk.injEq] at h2
        obtain ⟨h2, h3⟩ := h2
        subst h3
        rw [← h2, plug_append]
        rw [ih h1]
        rfl
      | right =>
        simp only [splitAt, Option.map_eq_some'] at h
        obtain ⟨⟨c1, s1⟩, h1, h2⟩ := h
        simp only [Prod.mk.injEq] at h2
        obtain ⟨h2, h3⟩ := h2
        subst h3
        rw [← h2, plug_append]
        rw [ih h1]
        rfl

theorem splitAt_plug (c : Ctx K V) (t : ATree K V) :
    splitAt (plug c t) (pathOf c) = some (c, t) := by
  induction c generalizing t with
  | nil => simp [plug, pathOf, splitAt]
  | cons f c ih =>
    rw [pathOf_cons, plug]
    have h := ih (frameFill f t)
    cases hd : f.d with
    | left =>
      have hf : frameFill f t = ATree.node f.data t f.sib := by
        simp [frameFill, hd]
      rw [hf] at h ⊢
      rw [splitAt_snoc_some Dir.left h]
      cases f
      simp_all [childOf, Dir.flip]
    | right =>
      have hf : frameFill f t = ATree.node f.data f.sib t := by
        simp [frameFill, hd]
      rw [hf] at h ⊢
      rw [splitAt_snoc_some Dir.right h]
      cases f
      simp_all [childOf, Dir.flip]

end RB

namespace RB

variable {K V : Type}

theorem rotate_id {pd : NodeData K V} {pl pr : ATree K V} {d : Dir}
    {sd : NodeData K V} {sl sr : ATree K V} (c : Ctx K V)
    (hS : childOf (ATree.node pd pl pr) d.flip = ATree.node sd sl sr) :
    rotate idHook c (ATree.node pd pl pr) d =
      some (c,
        withChild (ATree.node sd sl sr) d
          (withChild (ATree.node pd pl pr) d.flip (childOf (ATree.node sd sl sr) d)),
        ⟨ctxHeadId c, pd.id⟩) := by
  simp [rotate, hS, idHook, splitAt_plug]

theorem rotate_event {hook : Hook K V} {c : Ctx K V} {P : ATree K V} {d : Dir}
    {c' : Ctx K V} {S' : ATree K V} {ev : Event}
    (h : rotate hook c P d = some (c', S', ev)) :
    ev.oldParent = ctxHeadId c ∧ some ev.moved = rootIdOf P := by
  cases P with
  | nil => simp [rotate] at h
  | node pd pl pr =>
    cases hS : childOf (ATree.node pd pl pr) d.flip with
    | nil => rw [rotate, hS] at h; simp at h
    | node sd sl sr =>
      rw [rotate, hS] at h
      simp only [] at h
      rcases hsp : splitAt (hook (plug c (withChild (ATree.node sd sl sr) d
          (withChild (ATree.node pd pl pr) d.flip (childOf (ATree.node sd sl sr) d))))
          (ctxHeadId c) pd.id) (pathOf c) with _ | cs
      · rw [hsp] at h; exact absurd h (by simp)
      · rw [hsp] at h
        simp at h
        obtain ⟨h1, h2, h3⟩ := h
        subst h3
        simp [rootIdOf]

theorem insertFix_linear_left (P G : NodeData K V) (ps U n : ATree K V)
    (c2 : Ctx K V) (nd : NodeData K V) (nl nr : ATree K V)
    (hn : n = ATree.node nd nl nr)
    (hP : P.color = Color.red) (hU : isBlackOrNil U = true) :
    insertFix idHook (⟨Dir.left, P, ps⟩ :: ⟨Dir.left, G, U⟩ :: c2) n =
      some (plug c2 (ATree.node ⟨P.id, P.key, P.value, Color.black⟩ n
          (ATree.node ⟨G.id, G.key, G.value, Color.red⟩ ps U)),
        [⟨ctxHeadId c2, G.id⟩]) := by
  subst hn
  simp [insertFix, hP, hU, frameFill, rotate, idHook, childOf, withChild, Dir.flip,
    splitAt_plug, setRootColor, ctxHeadId]

theorem insertFix_linear_right (P G : NodeData K V) (ps U n : ATree K V)
    (c2 : Ctx K V) (nd : NodeData K V) (nl nr : ATree K V)
    (hn : n = ATree.node nd nl nr)
    (hP : P.color = Color.red) (hU : isBlackOrNil U = true) :
    insertFix idHook (⟨Dir.right, P, ps⟩ :: ⟨Dir.right, G, U⟩ :: c2) n =
      some (plug c2 (ATree.node ⟨P.id, P.key, P.value, Color.black⟩
          (ATree.node ⟨G.id, G.key, G.value, Color.red⟩ U ps) n),
        [⟨ctxHeadId c2, G.id⟩]) := by
  subst hn
  simp [insertFix, hP, hU, frameFill, rotate, idHook, childOf, withChild, Dir.flip,
    splitAt_plug, setRootColor, ctxHeadId]

theorem insertFix_zigzag_left (P G nd : NodeData K V) (ps U nl nr : ATree K V)
    (c2 : Ctx K V)
    (hP : P.color = Color.red) (hU : isBlackOrNil U = true) :
    insertFix idHook (⟨Dir.right, P, ps⟩ :: ⟨Dir.left, G, U⟩ :: c2)
        (ATree.node nd nl nr) =
      some (plug c2 (ATree.node ⟨nd.id, nd.key, nd.value, Color.black⟩
          (ATree.node P ps nl) (ATree.node ⟨G.id, G.key, G.value, Color.red⟩ nr U)),
        [⟨some G.id, P.id⟩, ⟨ctxHeadId c2, G.id⟩]) := by
  simp [insertFix, hP, hU, frameFill, rotate, idHook, childOf, withChild, Dir.flip,
    splitAt_plug, setRootColor, ctxHeadId]

theorem insertFix_zigzag_right (P G nd : NodeData K V) (ps U nl nr : ATree K V)
    (c2 : Ctx K V)
    (hP : P.color = Color.red) (hU : isBlackOrNil U = true) :
    insertFix idHook (⟨Dir.left, P, ps⟩ :: ⟨Dir.right, G, U⟩ :: c2)
        (ATree.node nd nl nr) =
      some (plug c2 (ATree.node ⟨nd.id, nd.key, nd.value, Color.black⟩
          (ATree.node ⟨G.id, G.key, G.value, Color.red⟩ U nl) (ATree.node P nr ps)),
        [⟨some G.id, P.id⟩, ⟨ctxHeadId c2, G.id⟩]) := by
  simp [insertFix, hP, hU, frameFill, rotate, idHook, childOf, withChild, Dir.flip,
    splitAt_plug, setRootColor, ctxHeadId]

theorem insertFix_uncleRed (hook : Hook K V) (f1 : Frame K V) (d2 : Dir)
    (G : NodeData K V) (U : ATree K V) (c2 : Ctx K V) (n : ATree K V)
    (hP : f1.data.color = Color.red) (hU : isBlackOrNil U = false) :
    insertFix hook (f1 :: ⟨d2, G, U⟩ :: c2) n =
      insertFix hook c2
        (frameFill ⟨d2, ⟨G.id, G.key, G.value, Color.red⟩, setRootColor U Color.black⟩
          (frameFill ⟨f1.d, ⟨f1.data.id, f1.data.key, f1.data.value, Color.black⟩, f1.sib⟩ n)) := by
  rw [insertFix]
  simp [hP, hU]

theorem insertFix_pblack (hook : Hook K V) (f1 : Frame K V) (c1 : Ctx K V)
    (n : ATree K V) (hP : f1.data.color = Color.black) :
    insertFix hook (f1 :: c1) n = some (plug (f1 :: c1) n, []) := by
  rw [insertFix.eq_def]
  simp [hP]

theorem insertFix_rootP (hook : Hook K V) (f1 : Frame K V) (n : ATree K V)
    (hP : f1.data.color = Color.red) :
    insertFix hook [f1] n =
      some (frameFill ⟨f1.d, ⟨f1.data.id, f1.data.key, f1.data.value, Color.black⟩, f1.sib⟩ n,
        []) := by
  rw [insertFix]
  simp [hP]

end RB

namespace RB

variable {K V : Type}

theorem SearchLoop_split {cmp : K → K → Int} {k : K} {t : ATree K V} :
    ∀ (x : ATree K V) (p0 : List Dir) (dir0 : Dir) (cx : Ctx K V)
      (p : List Dir) (fnd : Bool) (dir : Dir),
    splitAt t p0 = some (cx, x) →
    SearchLoop cmp k x p0 dir0 = (some p, fnd, dir) →
    ∃ c dat l r, splitAt t p = some (c, ATree.node dat l r) ∧
      (fnd = false → childOf (ATree.node dat l r) dir = ATree.nil)
  | ATree.nil, p0, dir0, cx, p, fnd, dir => by
    intro hsp hs
    simp [SearchLoop] at hs
  | ATree.node dat l r, p0, dir0, cx, p, fnd, dir => by
    intro hsp hs
    rw [SearchLoop.eq_def] at hs
    by_cases h0 : cmp k dat.key = 0
    · simp only [h0, if_true] at hs
      obtain ⟨rfl, rfl, rfl⟩ := by simpa using hs
      exact ⟨cx, dat, l, r, hsp, by simp⟩
    · by_cases hm : cmp k dat.key = -1
      · simp only [h0, hm, if_false, if_true] at hs
        cases l with
        | nil =>
          obtain ⟨rfl, rfl, rfl⟩ := by simpa using hs
          exact ⟨cx, dat, ATree.nil, r, hsp, fun _ => by simp [childOf]⟩
        | node d2 l2 r2 =>
          have hsp2 : splitAt t (p0 ++ [Dir.left]) =
              some (⟨Dir.left, dat, r⟩ :: cx, ATree.node d2 l2 r2) := by
            rw [splitAt_snoc_some (t := t) Dir.left hsp]
            simp [childOf, Dir.flip]
          exact SearchLoop_split (ATree.node d2 l2 r2) (p0 ++ [Dir.left]) Dir.left
            (⟨Dir.left, dat, r⟩ :: cx) p fnd dir hsp2 hs
      · by_cases hp1 : cmp k dat.key = 1
        · simp only [h0, hm, hp1, if_false, if_true] at hs
          cases r with
          | nil =>
            obtain ⟨rfl, rfl, rfl⟩ := by simpa using hs
            exact ⟨cx, dat, l, ATree.nil, hsp, fun _ => by simp [childOf]⟩
          | node d2 l2 r2 =>
            have hsp2 : splitAt t (p0 ++ [Dir.right]) =
                some (⟨Dir.right, dat, l⟩ :: cx, ATree.node d2 l2 r2) := by
              rw [splitAt_snoc_some (t := t) Dir.right hsp]
              simp [childOf, Dir.flip]
            exact SearchLoop_split (ATree.node d2 l2 r2) (p0 ++ [Dir.right]) Dir.right
              (⟨Dir.right, dat, l⟩ :: cx) p fnd dir hsp2 hs
        · simp only [h0, hm, hp1, if_false] at hs
          cases dir0 with
          | left =>
            cases l with
            | nil =>
              obtain ⟨rfl, rfl, rfl⟩ := by simpa using hs
              exact ⟨cx, dat, ATree.nil, r, hsp, fun _ => by simp [childOf]⟩
            | node d2 l2 r2 =>
              have hsp2 : splitAt t (p0 ++ [Dir.left]) =
                  some (⟨Dir.left, dat, r⟩ :: cx, ATree.node d2 l2 r2) := by
                rw [splitAt_snoc_some (t := t) Dir.left hsp]
                simp [childOf, Dir.flip]
              exact SearchLoop_split (ATree.node d2 l2 r2) (p0 ++ [Dir.left]) Dir.left
                (⟨Dir.left, dat, r⟩ :: cx) p fnd dir hsp2 hs
          | right =>
            cases r with
            | nil =>
              obtain ⟨rfl, rfl, rfl⟩ := by simpa using hs
              exact ⟨cx, dat, l, ATree.nil, hsp, fun _ => by simp [childOf]⟩
            | node d2 l2 r2 =>
              have hsp2 : splitAt t (p0 ++ [Dir.right]) =
                  some (⟨Dir.right, dat, l⟩ :: cx, ATree.node d2 l2 r2) := by
                rw [splitAt_snoc_some (t := t) Dir.right hsp]
                simp [childOf, Dir.flip]
              exact SearchLoop_split (ATree.node d2 l2 r2) (p0 ++ [Dir.right]) Dir.right
                (⟨Dir.right, dat, l⟩ :: cx) p fnd dir hsp2 hs

/-- When `Search` reports a hit or an insertion point, the reported path
is a valid location in the tree; at a miss the reported child slot is
absent. -/
theorem Search_split {cmp : K → K → Int} {t : ATree K V} {k : K}
    {p : List Dir} {fnd : Bool} {dir : Dir}
    (h : Search cmp t k = (some p, fnd, dir)) :
    ∃ c dat l r, splitAt t p = some (c, ATree.node dat l r) ∧
      (fnd = false → childOf (ATree.node dat l r) dir = ATree.nil) := by
  cases t with
  | nil => simp [Search] at h
  | node dat l r =>
    exact SearchLoop_split _ [] Dir.left [] p fnd dir (by simp [splitAt]) h

end RB

namespace RB

variable {K V : Type}

theorem SearchLoop_some {cmp : K → K → Int} {k : K} :
    ∀ (x : ATree K V) (p0 : List Dir) (dir0 : Dir), x ≠ ATree.nil →
    ∃ p fnd dir, SearchLoop cmp k x p0 dir0 = (some p, fnd, dir)
  | ATree.nil, p0, dir0 => by intro hn; exact absurd rfl hn
  | ATree.node dat l r, p0, dir0 => by
    intro hn
    rw [SearchLoop.eq_def]
    by_cases h0 : cmp k dat.key = 0
    · simp [h0]
    · by_cases hm : cmp k dat.key = -1
      · simp only [h0, hm, if_false, if_true]
        cases l with
        | nil => exact ⟨p0, false, Dir.left, rfl⟩
        | node d2 l2 r2 =>
          exact SearchLoop_some (ATree.node d2 l2 r2) (p0 ++ [Dir.left]) Dir.left (by simp)
      · by_cases hp1 : cmp k dat.key = 1
        · simp only [h0, hm, hp1, if_false, if_true]
          cases r with
          | nil => exact ⟨p0, false, Dir.right, rfl⟩
          | node d2 l2 r2 =>
            exact SearchLoop_some (ATree.node d2 l2 r2) (p0 ++ [Dir.right]) Dir.right (by simp)
        · simp only [h0, hm, hp1, if_false]
          cases dir0 with
          | left =>
            cases l with
            | nil => exact ⟨p0, false, Dir.left, rfl⟩
            | node d2 l2 r2 =>
              exact SearchLoop_some (ATree.node d2 l2 r2) (p0 ++ [Dir.left]) Dir.left (by simp)
          | right =>
            cases r with
            | nil => exact ⟨p0, false, Dir.right, rfl⟩
            | node d2 l2 r2 =>
              exact SearchLoop_some (ATree.node d2 l2 r2) (p0 ++ [Dir.right]) Dir.right (by simp)

theorem insertFix_total_aux :
    ∀ (N : Nat) (c : Ctx K V) (n : ATree K V), c.length ≤ N → n ≠ ATree.nil →
    ∃ r, insertFix idHook c n = some r := by
  intro N
  induction N with
  | zero =>
    intro c n hlen hn
    rw [List.length_eq_zero.mp (Nat.le_zero.mp hlen)]
    exact ⟨(n, []), rfl⟩
  | succ N ih =>
    intro c n hlen hn
    match c with
    | [] => exact ⟨(n, []), rfl⟩
    | f1 :: c1 =>
      by_cases hb : f1.data.color = Color.black
      · exact ⟨_, insertFix_pblack idHook f1 c1 n hb⟩
      · have hred : f1.data.color = Color.red := by
          cases hcc : f1.data.color
          · rfl
          · exact absurd hcc hb
        match c1 with
        | [] => exact ⟨_, insertFix_rootP idHook f1 n hred⟩
        | f2 :: c2 =>
          obtain ⟨d2, G, U⟩ := f2
          by_cases hu : isBlackOrNil U = true
          · obtain ⟨d1, P, ps⟩ := f1
            simp only at hred hu ⊢
            obtain ⟨nd, nl, nr, rfl⟩ : ∃ nd nl nr, n = ATree.node nd nl nr := by
              cases n with
              | nil => exact absurd rfl hn
              | node nd nl nr => exact ⟨nd, nl, nr, rfl⟩
            cases d1 with
            | left =>
              cases d2 with
              | left =>
                exact ⟨_, insertFix_linear_left P G ps U _ c2 nd nl nr rfl hred hu⟩
              | right =>
                exact ⟨_, insertFix_zigzag_right P G nd ps U nl nr c2 hred hu⟩
            | right =>
              cases d2 with
              | left =>
                exact ⟨_, insertFix_zigzag_left P G nd ps U nl nr c2 hred hu⟩
              | right =>
                exact ⟨_, insertFix_linear_right P G ps U _ c2 nd nl nr rfl hred hu⟩
          · have hu' : isBlackOrNil U = false := by
              cases hcc : isBlackOrNil U
              · rfl
              · exact absurd hcc hu
            rw [insertFix_uncleRed idHook f1 d2 G U c2 n hred hu']
            refine ih c2 _ ?_ ?_
            · have := Nat.le_of_succ_le_succ hlen
              simp only [List.length_cons] at this ⊢
              omega
            · cases hd2 : d2 <;> simp [frameFill, hd2]

theorem insertFix_total (c : Ctx K V) (n : ATree K V) (hn : n ≠ ATree.nil) :
    ∃ r, insertFix idHook c n = some r :=
  insertFix_total_aux c.length c n le_rfl hn

end RB

namespace RB

variable {K V : Type}

theorem Insert_nilRoot (hook : Hook K V) (cmp : K → K → Int) (i : Nat) (k : K) (v : V) :
    Insert hook cmp ⟨ATree.nil, i⟩ k v =
      some (⟨ATree.node ⟨i, k, v, Color.red⟩ ATree.nil ATree.nil, i + 1⟩, i, []) := rfl

theorem Insert_foundCase (hook : Hook K V) {cmp : K → K → Int} {t : RBTree K V}
    {k : K} {p : List Dir} {dir : Dir} {c : Ctx K V} {dat : NodeData K V}
    {l r : ATree K V} (v : V)
    (hs : Search cmp t.Root k = (some p, true, dir))
    (hsp : splitAt t.Root p = some (c, ATree.node dat l r)) :
    Insert hook cmp t k v =
      some (⟨plug c (ATree.node ⟨dat.id, dat.key, v, dat.color⟩ l r), t.nextId⟩,
        dat.id, []) := by
  obtain ⟨rt, i⟩ := t
  cases hr : rt with
  | nil => rw [hr] at hs; simp [Search] at hs
  | node rdat rl rr =>
    subst hr
    simp only at hs hsp
    rw [Insert]
    dsimp only
    rw [hs]
    dsimp only
    rw [hsp]

theorem Insert_newCase (hook : Hook K V) {cmp : K → K → Int} {t : RBTree K V}
    {k : K} {p : List Dir} {dir : Dir} {c : Ctx K V} {dat : NodeData K V}
    {l r : ATree K V} {t' : ATree K V} {evs : List Event} (v : V)
    (hs : Search cmp t.Root k = (some p, false, dir))
    (hsp : splitAt t.Root p = some (c, ATree.node dat l r))
    (hfix : insertFix hook
      (⟨dir, dat, childOf (ATree.node dat l r) dir.flip⟩ :: c)
      (ATree.node ⟨t.nextId, k, v, Color.red⟩ ATree.nil ATree.nil) = some (t', evs)) :
    Insert hook cmp t k v = some (⟨t', t.nextId + 1⟩, t.nextId, evs) := by
  obtain ⟨rt, i⟩ := t
  cases hr : rt with
  | nil => rw [hr] at hs; simp [Search] at hs
  | node rdat rl rr =>
    subst hr
    simp only at hs hsp hfix
    rw [Insert]
    dsimp only
    rw [hs]
    dsimp only
    rw [hsp]
    dsimp only
    rw [hfix]

theorem Insert_total (cmp : K → K → Int) (t : RBTree K V) (k : K) (v : V) :
    ∃ r, Insert idHook cmp t k v = some r := by
  obtain ⟨rt, i⟩ := t
  cases rt with
  | nil => exact ⟨_, Insert_nilRoot idHook cmp i k v⟩
  | node rdat rl rr =>
    obtain ⟨p, fnd, dir, hs⟩ :=
      @SearchLoop_some K V cmp k (ATree.node rdat rl rr) [] Dir.left (by simp)
    have hs' : Search cmp (ATree.node rdat rl rr) k = (some p, fnd, dir) := hs
    obtain ⟨c, dat, l, r, hsp, hnil⟩ := Search_split (t := ATree.node rdat rl rr) hs'
    cases fnd with
    | true => exact ⟨_, Insert_foundCase idHook v hs' hsp⟩
    | false =>
      obtain ⟨⟨t', evs⟩, hfix⟩ := insertFix_total
        (⟨dir, dat, childOf (ATree.node dat l r) dir.flip⟩ :: c)
        (ATree.node ⟨i, k, v, Color.red⟩ ATree.nil ATree.nil) (by simp)
      exact ⟨_, Insert_newCase idHook v hs' hsp hfix⟩

theorem insertFix_events_aux {hook : Hook K V} :
    ∀ (N : Nat) (c : Ctx K V) (n : ATree K V) (t' : ATree K V) (evs : List Event),
    c.length ≤ N → insertFix hook c n = some (t', evs) → evs.length ≤ 2 := by
  intro N
  induction N with
  | zero =>
    intro c n t' evs hlen h
    rw [List.length_eq_zero.mp (Nat.le_zero.mp hlen)] at h
    obtain ⟨rfl, rfl⟩ : n = t' ∧ [] = evs := by
      simpa [insertFix] using h
    simp
  | succ N ih =>
    intro c n t' evs hlen h
    match c with
    | [] =>
      obtain ⟨rfl, rfl⟩ : n = t' ∧ [] = evs := by
        simpa [insertFix] using h
      simp
    | f1 :: c1 =>
      by_cases hb : f1.data.color = Color.black
      · rw [insertFix_pblack hook f1 c1 n hb] at h
        obtain ⟨-, rfl⟩ : plug (f1 :: c1) n = t' ∧ [] = evs := by simpa using h
        simp
      · have hred : f1.data.color = Color.red := by
          cases hcc : f1.data.color
          · rfl
          · exact absurd hcc hb
        match c1 with
        | [] =>
          rw [insertFix_rootP hook f1 n hred] at h
          obtain ⟨-, rfl⟩ := by simpa using h
          simp
        | f2 :: c2 =>
          obtain ⟨d2, G, U⟩ := f2
          by_cases hu : isBlackOrNil U = true
          · rw [insertFix] at h
            rw [if_neg hb] at h
            dsimp only at h
            rw [if_pos hu] at h
            rcases hinner : (if f1.d = d2.flip then
                match rotate hook (⟨d2, G, U⟩ :: c2) (frameFill f1 n) d2 with
                | some (c', S', ev) => some (c', S', [ev])
                | none => none
              else some (⟨d2, G, U⟩ :: c2, frameFill f1 n, ([] : List Event))) with
              _ | ⟨cI, SI, evsI⟩
            · rw [hinner] at h; simp at h
            · rw [hinner] at h
              match cI with
              | [] => simp at h
              | f2' :: c2' =>
                have hevsI : evsI.length ≤ 1 := by
                  by_cases hz : f1.d = d2.flip
                  · rw [if_pos hz] at hinner
                    rcases hrot : rotate hook (⟨d2, G, U⟩ :: c2) (frameFill f1 n) d2 with
                      _ | ⟨c', S', ev⟩
                    · rw [hrot] at hinner; simp at hinner
                    · rw [hrot] at hinner
                      obtain ⟨-, -, rfl⟩ := by simpa using hinner
                      simp
                  · rw [if_neg hz] at hinner
                    obtain ⟨-, -, rfl⟩ := by simpa using hinner
                    simp
                dsimp only at h
                rcases hrot2 : rotate hook c2' (frameFill f2' SI) d2.flip with
                  _ | ⟨c2'', R, ev2⟩
                · rw [hrot2] at h; simp at h
                · rw [hrot2] at h
                  obtain ⟨-, rfl⟩ := by simpa using h
                  simp only [List.length_append, List.length_cons, List.length_nil]
                  omega
          · have hu' : isBlackOrNil U = false := by
              cases hcc : isBlackOrNil U
              · rfl
              · exact absurd hcc hu
            rw [insertFix_uncleRed hook f1 d2 G U c2 n hred hu'] at h
            refine ih c2 _ _ _ ?_ h
            have := Nat.le_of_succ_le_succ hlen
            simp only [List.length_cons] at this ⊢
            omega

end RB

namespace RB

variable {K V : Type}

theorem Insert_newCase_noneFix (hook : Hook K V) {cmp : K → K → Int} {t : RBTree K V}
    {k : K} {p : List Dir} {dir : Dir} {c : Ctx K V} {dat : NodeData K V}
    {l r : ATree K V} (v : V)
    (hs : Search cmp t.Root k = (some p, false, dir))
    (hsp : splitAt t.Root p = some (c, ATree.node dat l r))
    (hfix : insertFix hook
      (⟨dir, dat, childOf (ATree.node dat l r) dir.flip⟩ :: c)
      (ATree.node ⟨t.nextId, k, v, Color.red⟩ ATree.nil ATree.nil) = none) :
    Insert hook cmp t k v = none := by
  obtain ⟨rt, i⟩ := t
  cases hr : rt with
  | nil => rw [hr] at hs; simp [Search] at hs
  | node rdat rl rr =>
    subst hr
    simp only at hs hsp hfix
    rw [Insert]
    dsimp only
    rw [hs]
    dsimp only
    rw [hsp]
    dsimp only
    rw [hfix]

end RB

namespace Claims

open RB

/-- C10: during insertion, every `rotate` call made by the fixup loop has
the opposite-direction child `S = P.children[1-dir]` present, so the
dereference of `S` never faults: `Insert` (with a nil `AfterMove`, i.e.
the plain engine) never takes any of the `none` error branches, on any
tree whatsoever — in particular on every tree reachable by a sequence of
`Insert` operations. -/
theorem C10_rotate_sibling_present (K V : Type) (cmp : K → K → Int)
    (t : RBTree K V) (k : K) (v : V) :
    (Insert idHook cmp t k v).isSome = true := by
  obtain ⟨r, h⟩ := Insert_total cmp t k v
  simp [h]

/-- C9: the `AfterMove` hook fires only inside `rotate` — each completed
rotation reports exactly one event, whose `oldParent` is the rotated
node's parent as it was immediately before the rotation (the head of its
parent chain) and whose `moved` field is the rotated node itself — and a
single `Insert` performs at most two rotations, hence at most two hook
invocations. -/
theorem C9_hook_once_per_rotation (K V : Type) :
    (∀ (hook : Hook K V) (c : Ctx K V) (P : ATree K V) (d : Dir)
       (c' : Ctx K V) (S' : ATree K V) (ev : Event),
       rotate hook c P d = some (c', S', ev) →
       ev.oldParent = ctxHeadId c ∧ some ev.moved = rootIdOf P) ∧
    (∀ (hook : Hook K V) (cmp : K → K → Int) (t : RBTree K V) (k : K) (v : V)
       (t' : RBTree K V) (nid : Nat) (evs : List Event),
       Insert hook cmp t k v = some (t', nid, evs) → evs.length ≤ 2) := by
  constructor
  · intro hook c P d c' S' ev h
    exact rotate_event h
  · intro hook cmp t k v t' nid evs h
    obtain ⟨rt, i⟩ := t
    cases hr : rt with
    | nil =>
      rw [hr] at h
      rw [Insert_nilRoot hook cmp i k v] at h
      obtain ⟨-, -, rfl⟩ := by simpa using h
      simp
    | node rdat rl rr =>
      subst hr
      obtain ⟨p, fnd, dir, hs⟩ :=
        @SearchLoop_some K V cmp k (ATree.node rdat rl rr) [] Dir.left (by simp)
      have hs' : Search cmp (ATree.node rdat rl rr) k = (some p, fnd, dir) := hs
      obtain ⟨c, dat, l, r, hsp, -⟩ := Search_split (t := ATree.node rdat rl rr) hs'
      cases fnd with
      | true =>
        rw [Insert_foundCase hook v hs' hsp] at h
        obtain ⟨-, -, rfl⟩ := by simpa using h
        simp
      | false =>
        rcases hfix : insertFix hook
            (⟨dir, dat, childOf (ATree.node dat l r) dir.flip⟩ :: c)
            (ATree.node ⟨i, k, v, Color.red⟩ ATree.nil ATree.nil) with _ | ⟨t2, evs2⟩
        · rw [Insert_newCase_noneFix hook v hs' hsp hfix] at h
          simp at h
        · rw [Insert_newCase hook v hs' hsp hfix] at h
          obtain ⟨-, -, rfl⟩ := by simpa using h
          exact @insertFix_events_aux K V hook _ _ _ _ _ le_rfl hfix

/-- Witness for C9: the zig-zag insertion of key 2 into the tree holding
1 and 3 performs exactly two rotations, and a concrete rotation reports
its pre-rotation parent. -/
theorem C9_witness :
    ([(⟨some 0, 1⟩ : Event), ⟨none, 0⟩]).length ≤ 2 ∧
    ((⟨some 5, 0⟩ : Event).oldParent =
        ctxHeadId [(⟨Dir.left, ⟨5, (9 : Int), (), Color.black⟩, ATree.nil⟩ : Frame Int Unit)] ∧
      some (⟨some 5, 0⟩ : Event).moved =
        rootIdOf (ATree.node ⟨0, (1 : Int), (), Color.red⟩ ATree.nil
          (ATree.node ⟨1, 2, (), Color.red⟩ ATree.nil ATree.nil))) := by
  constructor
  · exact (C9_hook_once_per_rotation Int Unit).2 idHook cmpInt
      ⟨ATree.node ⟨0, 1, (), Color.black⟩ ATree.nil
        (ATree.node ⟨1, 3, (), Color.red⟩ ATree.nil ATree.nil), 2⟩
      2 ()
      ⟨ATree.node ⟨2, 2, (), Color.black⟩
        (ATree.node ⟨0, 1, (), Color.red⟩ ATree.nil ATree.nil)
        (ATree.node ⟨1, 3, (), Color.red⟩ ATree.nil ATree.nil), 3⟩
      2 [⟨some 0, 1⟩, ⟨none, 0⟩] (by decide)
  · exact (C9_hook_once_per_rotation Int Unit).1 idHook
      [⟨Dir.left, ⟨5, 9, (), Color.black⟩, ATree.nil⟩]
      (ATree.node ⟨0, 1, (), Color.red⟩ ATree.nil
        (ATree.node ⟨1, 2, (), Color.red⟩ ATree.nil ATree.nil))
      Dir.left
      [⟨Dir.left, ⟨5, 9, (), Color.black⟩, ATree.nil⟩]
      (ATree.node ⟨1, 2, (), Color.red⟩
        (ATree.node ⟨0, 1, (), Color.red⟩ ATree.nil ATree.nil) ATree.nil)
      ⟨some 5, 0⟩ (by decide)

/-- C1 counterexample: after inserting a single key into the empty tree
the root is red, not black — the spec's root-is-black invariant fails on
a reachable tree. -/
theorem C1_counterexample :
    (Insert idHook cmpInt (emptyT (K := Int) (V := Int)) 0 0).map
      (fun res => rootBlackB res.1.Root) = some false := by decide

/-- C1 amended: inserting into an empty tree creates a single red root
node (the fixup never blackens it), so the root is not always black
after an `Insert`. -/
theorem C1_insert_empty_red_root (K V : Type) (hook : Hook K V)
    (cmp : K → K → Int) (i : Nat) (k : K) (v : V) :
    Insert hook cmp ⟨ATree.nil, i⟩ k v =
      some (⟨ATree.node ⟨i, k, v, Color.red⟩ ATree.nil ATree.nil, i + 1⟩, i, []) ∧
    rootColorOf (ATree.node (⟨i, k, v, Color.red⟩ : NodeData K V) ATree.nil ATree.nil) =
      some Color.red :=
  ⟨Insert_nilRoot hook cmp i k v, rfl⟩

/-- C5: inserting a key that is already present overwrites only the
existing node's value and returns that node: the result plugs a node
with the same id, key, color and children (value replaced by `v`) into
the unchanged remainder of the tree, the allocation counter does not
move (no new node), and no rotation happens so the hook event list is
empty. -/
theorem C5_insert_existing_updates_value (K V : Type) (hook : Hook K V)
    {cmp : K → K → Int} {t : RBTree K V} {k : K} {p : List Dir} {dir : Dir}
    {c : Ctx K V} {dat : NodeData K V} {l r : ATree K V} (v : V)
    (hs : Search cmp t.Root k = (some p, true, dir))
    (hsp : splitAt t.Root p = some (c, ATree.node dat l r)) :
    Insert hook cmp t k v =
      some (⟨plug c (ATree.node ⟨dat.id, dat.key, v, dat.color⟩ l r), t.nextId⟩,
        dat.id, []) ∧
    plug c (ATree.node dat l r) = t.Root :=
  ⟨Insert_foundCase hook v hs hsp, plug_of_splitAt hsp⟩

/-- Witness for C5: overwriting the value of key 1 in a concrete
two-node tree. -/
theorem C5_witness :
    Insert idHook cmpInt
        (⟨ATree.node ⟨0, 1, 10, Color.black⟩ ATree.nil
          (ATree.node ⟨1, 2, 20, Color.red⟩ ATree.nil ATree.nil), 2⟩ : RBTree Int Int)
        1 99 =
      some (⟨ATree.node ⟨0, 1, 99, Color.black⟩ ATree.nil
          (ATree.node ⟨1, 2, 20, Color.red⟩ ATree.nil ATree.nil), 2⟩, 0, []) ∧
    ATree.node (⟨0, (1 : Int), (10 : Int), Color.black⟩ : NodeData Int Int) ATree.nil
        (ATree.node ⟨1, 2, 20, Color.red⟩ ATree.nil ATree.nil) =
      ATree.node ⟨0, 1, 10, Color.black⟩ ATree.nil
        (ATree.node ⟨1, 2, 20, Color.red⟩ ATree.nil ATree.nil) :=
  @C5_insert_existing_updates_value Int Int idHook cmpInt
    ⟨ATree.node ⟨0, 1, 10, Color.black⟩ ATree.nil
      (ATree.node ⟨1, 2, 20, Color.red⟩ ATree.nil ATree.nil), 2⟩
    1 [] Dir.left [] ⟨0, 1, 10, Color.black⟩ ATree.nil
    (ATree.node ⟨1, 2, 20, Color.red⟩ ATree.nil ATree.nil)
    99 (by decide) (by decide)

end Claims

namespace RB

variable {K V : Type}

theorem dotP_out (w : Writer) (s : String) : (dotP w s).out = w.out ++ [s, "\n"] := by
  simp [dotP, wWrite]

theorem dotNode_nil_nil (ks : K → String) (vstr : V → String)
    (meta : Option (ATree K V → String)) (dat : NodeData K V) (w : Writer) :
    dotNode ks vstr meta (ATree.node dat ATree.nil ATree.nil) w =
      dotP (dotP (dotP (dotP (dotP w
        ("p" ++ toString dat.id ++ " [label=\"" ++
          (match meta with
           | none => ks dat.key ++ " = " ++ vstr dat.value
           | some m => ks dat.key ++ " = " ++ vstr dat.value ++ "\n" ++
               m (ATree.node dat ATree.nil ATree.nil)) ++
          "\", color=" ++ (if dat.color = Color.black then "black" else "red") ++ "];"))
        ("p" ++ toString dat.id ++ "c0 [label=nil, style=invis];"))
        ("p" ++ toString dat.id ++ " -> " ++ ("p" ++ toString dat.id) ++ "c0 [style=invis];"))
        ("p" ++ toString dat.id ++ "c1 [label=nil, style=invis];"))
        ("p" ++ toString dat.id ++ " -> " ++ ("p" ++ toString dat.id) ++ "c1 [style=invis];") := rfl

theorem dotNode_nil_node (ks : K → String) (vstr : V → String)
    (meta : Option (ATree K V → String)) (dat d3 : NodeData K V)
    (l3 r3 : ATree K V) (w : Writer) :
    dotNode ks vstr meta (ATree.node dat ATree.nil (ATree.node d3 l3 r3)) w =
      dotP (dotNode ks vstr meta (ATree.node d3 l3 r3)
        (dotP (dotP (dotP w
          ("p" ++ toString dat.id ++ " [label=\"" ++
            (match meta with
             | none => ks dat.key ++ " = " ++ vstr dat.value
             | some m => ks dat.key ++ " = " ++ vstr dat.value ++ "\n" ++
                 m (ATree.node dat ATree.nil (ATree.node d3 l3 r3))) ++
            "\", color=" ++ (if dat.color = Color.black then "black" else "red") ++ "];"))
          ("p" ++ toString dat.id ++ "c0 [label=nil, style=invis];"))
          ("p" ++ toString dat.id ++ " -> " ++ ("p" ++ toString dat.id) ++ "c0 [style=invis];")))
        ("p" ++ toString dat.id ++ " -> p" ++ toString d3.id ++ ";") := rfl

theorem dotNode_node_nil (ks : K → String) (vstr : V → String)
    (meta : Option (ATree K V → String)) (dat d2 : NodeData K V)
    (l2 r2 : ATree K V) (w : Writer) :
    dotNode ks vstr meta (ATree.node dat (ATree.node d2 l2 r2) ATree.nil) w =
      dotP (dotP (dotP (dotNode ks vstr meta (ATree.node d2 l2 r2)
        (dotP w
          ("p" ++ toString dat.id ++ " [label=\"" ++
            (match meta with
             | none => ks dat.key ++ " = " ++ vstr dat.value
             | some m => ks dat.key ++ " = " ++ vstr dat.value ++ "\n" ++
                 m (ATree.node dat (ATree.node d2 l2 r2) ATree.nil)) ++
            "\", color=" ++ (if dat.color = Color.black then "black" else "red") ++ "];")))
        ("p" ++ toString dat.id ++ " -> p" ++ toString d2.id ++ ";"))
        ("p" ++ toString dat.id ++ "c1 [label=nil, style=invis];"))
        ("p" ++ toString dat.id ++ " -> " ++ ("p" ++ toString dat.id) ++ "c1 [style=invis];") := rfl

theorem dotNode_node_node (ks : K → String) (vstr : V → String)
    (meta : Option (ATree K V → String)) (dat d2 d3 : NodeData K V)
    (l2 r2 l3 r3 : ATree K V) (w : Writer) :
    dotNode ks vstr meta (ATree.node dat (ATree.node d2 l2 r2) (ATree.node d3 l3 r3)) w =
      dotP (dotNode ks vstr meta (ATree.node d3 l3 r3)
        (dotP (dotNode ks vstr meta (ATree.node d2 l2 r2)
          (dotP w ("p" ++ toString dat.id ++ " [label=\"" ++
            (match meta with
             | none => ks dat.key ++ " = " ++ vstr dat.value
             | some m => ks dat.key ++ " = " ++ vstr dat.value ++ "\n" ++
                 m (ATree.node dat (ATree.node d2 l2 r2) (ATree.node d3 l3 r3))) ++
            "\", color=" ++ (if dat.color = Color.black then "black" else "red") ++ "];")))
          ("p" ++ toString dat.id ++ " -> p" ++ toString d2.id ++ ";")))
        ("p" ++ toString dat.id ++ " -> p" ++ toString d3.id ++ ";") := rfl

theorem dotNode_out_congr (ks : K → String) (vstr : V → String)
    (meta : Option (ATree K V → String)) :
    ∀ (t : ATree K V) (w w' : Writer), w.out = w'.out →
    (dotNode ks vstr meta t w).out = (dotNode ks vstr meta t w').out
  | ATree.nil, w, w', h => by simp [dotNode, h]
  | ATree.node dat ATree.nil ATree.nil, w, w', h => by
    rw [dotNode_nil_nil, dotNode_nil_nil]
    simp only [dotP_out, List.append_assoc, h]
  | ATree.node dat ATree.nil (ATree.node d3 l3 r3), w, w', h => by
    rw [dotNode_nil_node, dotNode_nil_node]
    simp only [dotP_out, List.append_assoc]
    congr 1
    refine dotNode_out_congr ks vstr meta (ATree.node d3 l3 r3) _ _ ?_
    simp only [dotP_out, List.append_assoc, h]
  | ATree.node dat (ATree.node d2 l2 r2) ATree.nil, w, w', h => by
    rw [dotNode_node_nil, dotNode_node_nil]
    simp only [dotP_out, List.append_assoc]
    congr 1
    refine dotNode_out_congr ks vstr meta (ATree.node d2 l2 r2) _ _ ?_
    simp only [dotP_out, List.append_assoc, h]
  | ATree.node dat (ATree.node d2 l2 r2) (ATree.node d3 l3 r3), w, w', h => by
    rw [dotNode_node_node, dotNode_node_node]
    simp only [dotP_out, List.append_assoc]
    congr 1
    refine dotNode_out_congr ks vstr meta (ATree.node d3 l3 r3) _ _ ?_
    simp only [dotP_out, List.append_assoc]
    congr 1
    refine dotNode_out_congr ks vstr meta (ATree.node d2 l2 r2) _ _ ?_
    simp only [dotP_out, List.append_assoc, h]

end RB

namespace Claims

open RB

/-- C6 counterexample: on a concrete one-node tree whose sink raises a
write error on the very first write, `Dot` completes, emits exactly the
same output as an error-free run, and surfaces no error to its caller —
the write error is not propagated (the second conjunct shows the sink
did raise it and `Dot` discarded it). -/
theorem C6_counterexample :
    (Dot (fun _ : Int => "k") (fun _ : Int => "v") none
        (ATree.node (⟨0, 1, 7, Color.black⟩ : NodeData Int Int) ATree.nil ATree.nil)
        ⟨[], [true]⟩).out =
      (Dot (fun _ : Int => "k") (fun _ : Int => "v") none
        (ATree.node (⟨0, 1, 7, Color.black⟩ : NodeData Int Int) ATree.nil ATree.nil)
        ⟨[], []⟩).out ∧
    (wWrite ⟨[], [true]⟩ "digraph \x7b").2 = true :=
  ⟨rfl, rfl⟩

/-- C6 amended: the exporter `Dot` never mutates the tree (it only reads
it and returns the sink's state), and it ignores write errors instead of
propagating them: its emitted output is entirely independent of the
sink's error results. -/
theorem C6_dot_ignores_write_errors (K V : Type) (ks : K → String)
    (vstr : V → String) (meta : Option (ATree K V → String)) (t : ATree K V)
    (out : List String) (errs errs' : List Bool) :
    (Dot ks vstr meta t ⟨out, errs⟩).out = (Dot ks vstr meta t ⟨out, errs'⟩).out := by
  unfold Dot
  simp only [dotP_out, List.append_assoc]
  congr 1
  refine dotNode_out_congr ks vstr meta t _ _ ?_
  simp only [dotP_out, List.append_assoc]

end Claims

namespace IT

theorem vsMax_eq_max (vs0 vs1 vs2 : Int) :
    vsMax vs0 vs1 vs2 = max vs2 (max vs0 vs1) := by
  simp only [vsMax, max_def]
  split_ifs <;> omega

theorem updateAug_nil_ctx (dat : NodeData GoInterval IValue)
    (l r : ATree GoInterval IValue) :
    updateAug [] (ATree.node dat l r) =
      if vsMax (orMinInt l) (orMinInt r) dat.key.Max ≠ dat.value.MaxSubtree then
        (ATree.node ⟨dat.id, dat.key,
          ⟨vsMax (orMinInt l) (orMinInt r) dat.key.Max, dat.value.Value⟩, dat.color⟩ l r,
          true)
      else (plug [] (ATree.node dat l r), false) := rfl

theorem updateAug_cons_ctx (f : Frame GoInterval IValue)
    (c' : Ctx GoInterval IValue) (dat : NodeData GoInterval IValue)
    (l r : ATree GoInterval IValue) :
    updateAug (f :: c') (ATree.node dat l r) =
      if vsMax (orMinInt l) (orMinInt r) dat.key.Max ≠ dat.value.MaxSubtree then
        ((updateAug c' (frameFill f
          (ATree.node ⟨dat.id, dat.key,
            ⟨vsMax (orMinInt l) (orMinInt r) dat.key.Max, dat.value.Value⟩, dat.color⟩ l r))).1,
          true)
      else (plug (f :: c') (ATree.node dat l r), false) := rfl

theorem updateAugSpec_nil_ctx (dat : NodeData GoInterval IValue)
    (l r : ATree GoInterval IValue) :
    updateAugSpec [] (ATree.node dat l r) =
      if max dat.key.Max (max (orMinInt l) (orMinInt r)) ≠ dat.value.MaxSubtree then
        (ATree.node ⟨dat.id, dat.key,
          ⟨max dat.key.Max (max (orMinInt l) (orMinInt r)), dat.value.Value⟩, dat.color⟩ l r,
          true)
      else (plug [] (ATree.node dat l r), false) := rfl

theorem updateAugSpec_cons_ctx (f : Frame GoInterval IValue)
    (c' : Ctx GoInterval IValue) (dat : NodeData GoInterval IValue)
    (l r : ATree GoInterval IValue) :
    updateAugSpec (f :: c') (ATree.node dat l r) =
      if max dat.key.Max (max (orMinInt l) (orMinInt r)) ≠ dat.value.MaxSubtree then
        ((updateAugSpec c' (frameFill f
          (ATree.node ⟨dat.id, dat.key,
            ⟨max dat.key.Max (max (orMinInt l) (orMinInt r)), dat.value.Value⟩,
            dat.color⟩ l r))).1, true)
      else (plug (f :: c') (ATree.node dat l r), false) := rfl

end IT

namespace Claims

open RB

/-- C7: `updateAug` behaves exactly as the specification words it
(`updateAugSpec`): an absent node is a no-op returning false; otherwise
the candidate is the maximum of the node's own `key.Max` and each
child's stored `MaxSubtree` (or `math.MinInt` for an absent child); if
the candidate differs from the stored value it is stored, the recursion
continues at the parent and true is returned; otherwise false is
returned immediately without visiting any ancestor. -/
theorem C7_updateAug_matches_spec (c : Ctx GoInterval IValue) :
    ∀ n : ATree GoInterval IValue, IT.updateAug c n = IT.updateAugSpec c n := by
  induction c with
  | nil =>
    intro n
    cases n with
    | nil => rfl
    | node dat l r =>
      rw [IT.updateAug_nil_ctx, IT.updateAugSpec_nil_ctx, IT.vsMax_eq_max, max_comm]
  | cons f c' ih =>
    intro n
    cases n with
    | nil => rfl
    | node dat l r =>
      rw [IT.updateAug_cons_ctx, IT.updateAugSpec_cons_ctx, IT.vsMax_eq_max, max_comm]
      rw [ih]

/-- C2 code bug: after re-inserting the already-present interval
`[0,10]` into the tree holding `[0,10]` and `[1,20]`, the root stores
`MaxSubtree = 10` although its present child stores 20, so the
augmentation invariant fails; it also fails after the five fresh-key
insertions `[56,72], [66,68], [76,81], [24,30], [55,62]` (a rotation
leaves the moved node's new parent stale).  The first conjunct exhibits
the exact final tree of the duplicate-key run. -/
theorem C2_aug_invariant_fails :
    IT.foldIT (emptyT (K := GoInterval) (V := IValue))
        [(0, 10, ""), (1, 20, ""), (0, 10, "")] =
      some ⟨ATree.node ⟨0, ⟨0, 10⟩, ⟨10, ""⟩, Color.black⟩ ATree.nil
        (ATree.node ⟨1, ⟨1, 20⟩, ⟨20, ""⟩, Color.red⟩ ATree.nil ATree.nil), 2⟩ ∧
    (IT.foldIT (emptyT (K := GoInterval) (V := IValue))
        [(0, 10, ""), (1, 20, ""), (0, 10, "")]).map (fun t => augOKB t.Root) =
      some false ∧
    (IT.foldIT (emptyT (K := GoInterval) (V := IValue))
        [(56, 72, ""), (66, 68, ""), (76, 81, ""), (24, 30, ""), (55, 62, "")]).map
        (fun t => augOKB t.Root) =
      some false :=
  ⟨rfl, rfl, rfl⟩

end Claims

namespace RB

variable {K V : Type}

theorem colorBit_red : colorBit Color.red = 0 := rfl

theorem colorBit_black : colorBit Color.black = 1 := rfl

theorem bhOf_node_build {l r : ATree K V} {hc : Nat} (dat : NodeData K V)
    (hl : bhOf l = some hc) (hr : bhOf r = some hc) :
    bhOf (ATree.node dat l r) = some (hc + colorBit dat.color) := by
  rw [bhOf, hl, hr]
  simp [colorBit]

theorem bhOf_node_inv {dat : NodeData K V} {l r : ATree K V} {h : Nat}
    (hb : bhOf (ATree.node dat l r) = some h) :
    ∃ hc, bhOf l = some hc ∧ bhOf r = some hc ∧ h = hc + colorBit dat.color := by
  rw [bhOf] at hb
  rcases hl : bhOf l with _ | a <;> rw [hl] at hb
  · simp at hb
  · rcases hr : bhOf r with _ | b <;> rw [hr] at hb
    · simp at hb
    · dsimp only at hb
      by_cases hab : a = b
      · subst hab
        rw [if_pos rfl] at hb
        injection hb with hb
        exact ⟨a, rfl, rfl, by rw [← hb]; rfl⟩
      · rw [if_neg hab] at hb
        simp at hb

theorem noRR_node_iff {dat : NodeData K V} {l r : ATree K V} :
    noRR (ATree.node dat l r) = true ↔
      noRR l = true ∧ noRR r = true ∧
      (dat.color = Color.red → isBlackOrNil l = true ∧ isBlackOrNil r = true) := by
  rw [noRR]
  by_cases hc : dat.color = Color.red
  · simp [hc, and_assoc]
  · simp [hc]

theorem bhOf_frameFill {f : Frame K V} {s : ATree K V} {h : Nat}
    (hsib : bhOf f.sib = some h) (hs : bhOf s = some h) :
    bhOf (frameFill f s) = some (h + colorBit f.data.color) := by
  cases hd : f.d with
  | left =>
    have : frameFill f s = ATree.node f.data s f.sib := by simp [frameFill, hd]
    rw [this]
    exact bhOf_node_build f.data hs hsib
  | right =>
    have : frameFill f s = ATree.node f.data f.sib s := by simp [frameFill, hd]
    rw [this]
    exact bhOf_node_build f.data hsib hs

theorem noRR_frameFill {f : Frame K V} {s : ATree K V}
    (hsib : noRR f.sib = true) (hs : noRR s = true)
    (hcol : f.data.color = Color.red → isBlackOrNil f.sib = true ∧ isBlackOrNil s = true) :
    noRR (frameFill f s) = true := by
  cases hd : f.d with
  | left =>
    have : frameFill f s = ATree.node f.data s f.sib := by simp [frameFill, hd]
    rw [this, noRR_node_iff]
    exact ⟨hs, hsib, fun hr => ⟨(hcol hr).2, (hcol hr).1⟩⟩
  | right =>
    have : frameFill f s = ATree.node f.data f.sib s := by simp [frameFill, hd]
    rw [this, noRR_node_iff]
    exact ⟨hsib, hs, fun hr => ⟨(hcol hr).1, (hcol hr).2⟩⟩

theorem isBlackOrNil_frameFill {f : Frame K V} {s : ATree K V} :
    isBlackOrNil (frameFill f s) = (f.data.color = Color.black : Bool) := by
  cases hd : f.d <;> simp [frameFill, hd, isBlackOrNil]

theorem headBlack_of_not_headRed {c : Ctx K V} (h : ¬ headRed c) : headBlack c := by
  cases c with
  | nil => trivial
  | cons f c' =>
    cases hc : f.data.color with
    | red => exact absurd hc h
    | black => exact hc

theorem not_headRed_of_headBlack {c : Ctx K V} (h : headBlack c) : ¬ headRed c := by
  cases c with
  | nil => simp [headRed]
  | cons f c' =>
    intro hr
    rw [headBlack] at h
    rw [headRed] at hr
    rw [h] at hr
    exact Color.noConfusion hr

theorem plugBH : ∀ (c : Ctx K V) (s : ATree K V) (h : Nat),
    ctxBH c h → bhOf s = some h → ∃ H, bhOf (plug c s) = some H
  | [], s, h, _, hs => ⟨h, hs⟩
  | f :: c, s, h, hc, hs => by
    obtain ⟨hsib, hrest⟩ := hc
    exact plugBH c (frameFill f s) (h + colorBit f.data.color) hrest
      (bhOf_frameFill hsib hs)

theorem plugRR : ∀ (c : Ctx K V) (s : ATree K V),
    ctxRR c → noRR s = true → (headRed c → isBlackOrNil s = true) →
    noRR (plug c s) = true
  | [], s, _, hs, _ => hs
  | f :: c, s, hc, hs, hhead => by
    obtain ⟨hsib, hcol, hrest⟩ := hc
    refine plugRR c (frameFill f s) hrest ?_ ?_
    · refine noRR_frameFill hsib hs ?_
      intro hr
      exact ⟨(hcol hr).1, hhead (by rw [headRed, hr])⟩
    · intro hredc
      rw [isBlackOrNil_frameFill]
      cases hfc : f.data.color with
      | black => simp
      | red =>
        exact absurd hredc (not_headRed_of_headBlack ((hcol hfc).2))
  decreasing_by all_goals simp

end RB

namespace RB

variable {K V : Type}

theorem splitAt_snoc_none {t : ATree K V} {p : List Dir} (d : Dir)
    (h : splitAt t p = none) : splitAt t (p ++ [d]) = none := by
  induction p generalizing t with
  | nil => simp [splitAt] at h
  | cons d0 p ih =>
    cases t with
    | nil => cases d0 <;> rfl
    | node dat0 l0 r0 =>
      cases d0 with
      | left =>
        simp only [splitAt, Option.map_eq_none'] at h
        have := ih (t := l0) h
        simp only [List.cons_append, splitAt, List.append_eq, this, Option.map_none']
      | right =>
        simp only [splitAt, Option.map_eq_none'] at h
        have := ih (t := r0) h
        simp only [List.cons_append, splitAt, List.append_eq, this, Option.map_none']

theorem splitAt_snoc_focus_nil {t : ATree K V} {p : List Dir} {c : Ctx K V} (d : Dir)
    (h : splitAt t p = some (c, ATree.nil)) : splitAt t (p ++ [d]) = none := by
  induction p generalizing t c with
  | nil =>
    simp [splitAt] at h
    obtain ⟨rfl, rfl⟩ := h
    cases d <;> rfl
  | cons d0 p ih =>
    cases t with
    | nil => cases d0 <;> rfl
    | node dat0 l0 r0 =>
      cases d0 with
      | left =>
        simp only [splitAt, Option.map_eq_some'] at h
        obtain ⟨⟨c1, s1⟩, h1, h2⟩ := h
        simp only [Prod.mk.injEq] at h2
        obtain ⟨h2, h3⟩ := h2
        subst h3
        have := ih (t := l0) h1
        simp only [List.cons_append, splitAt, List.append_eq, this, Option.map_none']
      | right =>
        simp only [splitAt, Option.map_eq_some'] at h
        obtain ⟨⟨c1, s1⟩, h1, h2⟩ := h
        simp only [Prod.mk.injEq] at h2
        obtain ⟨h2, h3⟩ := h2
        subst h3
        have := ih (t := r0) h1
        simp only [List.cons_append, splitAt, List.append_eq, this, Option.map_none']

theorem childOf_blackOrNil {dat : NodeData K V} {l r : ATree K V} (d : Dir)
    (hl : isBlackOrNil l = true) (hr : isBlackOrNil r = true) :
    isBlackOrNil (childOf (ATree.node dat l r) d) = true := by
  cases d <;> simpa [childOf]

theorem splitAt_inv_rb {t : ATree K V} {H : Nat}
    (hbt : bhOf t = some H) (hrt : noRR t = true) :
    ∀ (p : List Dir) (c : Ctx K V) (s : ATree K V), splitAt t p = some (c, s) →
    ∃ h, ctxBH c h ∧ ctxRR c ∧ bhOf s = some h ∧ noRR s = true ∧
      (headRed c → isBlackOrNil s = true) := by
  intro p
  induction p using List.reverseRecOn with
  | nil =>
    intro c s h
    simp [splitAt] at h
    obtain ⟨rfl, rfl⟩ := h
    exact ⟨H, trivial, trivial, hbt, hrt, fun hh => absurd hh (by simp [headRed])⟩
  | append_singleton p d ih =>
    intro c s h
    rcases hsp : splitAt t p with _ | ⟨c0, s0⟩
    · rw [splitAt_snoc_none d hsp] at h
      exact absurd h (by simp)
    · cases hs0 : s0 with
      | nil =>
        rw [hs0] at hsp
        rw [splitAt_snoc_focus_nil d hsp] at h
        exact absurd h (by simp)
      | node dat l r =>
        rw [hs0] at hsp
        rw [splitAt_snoc_some d hsp] at h
        obtain ⟨rfl, rfl⟩ : (⟨d, dat, childOf (ATree.node dat l r) d.flip⟩ :: c0 = c) ∧
            childOf (ATree.node dat l r) d = s := by simpa using h
        obtain ⟨h0, hcbh, hcrr, hbs0, hrs0, hhead⟩ := ih c0 (ATree.node dat l r) hsp
        obtain ⟨hc, hbl, hbr, rfl⟩ := bhOf_node_inv hbs0
        obtain ⟨hrl, hrr, hcol⟩ := noRR_node_iff.mp hrs0
        refine ⟨hc, ?_, ?_, ?_, ?_, ?_⟩
        · refine ⟨?_, hcbh⟩
          cases d <;> simpa [childOf, Dir.flip]
        · refine ⟨?_, ?_, hcrr⟩
          · cases d <;> simpa [childOf, Dir.flip]
          · intro hdred
            refine ⟨childOf_blackOrNil d.flip (hcol hdred).1 (hcol hdred).2, ?_⟩
            refine headBlack_of_not_headRed ?_
            intro hhr
            have := hhead hhr
            rw [isBlackOrNil] at this
            rw [hdred] at this
            exact absurd this (by simp)
        · cases d <;> simpa [childOf]
        · cases d <;> simpa [childOf]
        · intro hdred
          rw [headRed] at hdred
          exact childOf_blackOrNil d (hcol hdred).1 (hcol hdred).2

end RB

namespace RB

variable {K V : Type}

theorem isBlackOrNil_false_red {U : ATree K V} (h : isBlackOrNil U = false) :
    ∃ Ud Ul Ur, U = ATree.node Ud Ul Ur ∧ Ud.color = Color.red := by
  cases U with
  | nil => simp [isBlackOrNil] at h
  | node Ud Ul Ur =>
    rw [isBlackOrNil] at h
    refine ⟨Ud, Ul, Ur, rfl, ?_⟩
    cases hc : Ud.color with
    | red => rfl
    | black => rw [hc] at h; simp at h

theorem setRootColor_node (dat : NodeData K V) (l r : ATree K V) (col : Color) :
    setRootColor (ATree.node dat l r) col =
      ATree.node ⟨dat.id, dat.key, dat.value, col⟩ l r := rfl

theorem bhOf_setBlack_of_red {Ud : NodeData K V} {Ul Ur : ATree K V} {h : Nat}
    (hb : bhOf (ATree.node Ud Ul Ur) = some h) (hc : Ud.color = Color.red) :
    bhOf (ATree.node ⟨Ud.id, Ud.key, Ud.value, Color.black⟩ Ul Ur) = some (h + 1) := by
  obtain ⟨hc2, hl, hr, rfl⟩ := bhOf_node_inv hb
  rw [hc, colorBit_red]
  have := bhOf_node_build (l := Ul) (r := Ur)
    (⟨Ud.id, Ud.key, Ud.value, Color.black⟩ : NodeData K V) hl hr
  simpa using this

theorem noRR_setBlack {Ud : NodeData K V} {Ul Ur : ATree K V}
    (hr : noRR (ATree.node Ud Ul Ur) = true) :
    noRR (ATree.node ⟨Ud.id, Ud.key, Ud.value, Color.black⟩ Ul Ur) = true := by
  obtain ⟨h1, h2, -⟩ := noRR_node_iff.mp hr
  exact noRR_node_iff.mpr ⟨h1, h2, by intro hc; exact absurd hc (by simp)⟩

theorem insertFix_rb_aux :
    ∀ (N : Nat) (c : Ctx K V) (n : ATree K V) (h : Nat),
    c.length ≤ N →
    ctxBH c h → ctxRR c → bhOf n = some h → noRR n = true →
    (∃ nd nl nr, n = ATree.node nd nl nr ∧ nd.color = Color.red) →
    ∀ t' evs, insertFix idHook c n = some (t', evs) →
    noRR t' = true ∧ (bhOf t').isSome = true := by
  intro N
  induction N with
  | zero =>
    intro c n h hlen hcbh hcrr hbn hrn hnode t' evs heq
    rw [List.length_eq_zero.mp (Nat.le_zero.mp hlen)] at heq
    obtain ⟨rfl, rfl⟩ : n = t' ∧ [] = evs := by simpa [insertFix] using heq
    exact ⟨hrn, by simp [hbn]⟩
  | succ N ih =>
    intro c n h hlen hcbh hcrr hbn hrn hnode t' evs heq
    match c with
    | [] =>
      obtain ⟨rfl, rfl⟩ : n = t' ∧ [] = evs := by simpa [insertFix] using heq
      exact ⟨hrn, by simp [hbn]⟩
    | f1 :: c1 =>
      obtain ⟨hbs1, hcbh1⟩ := hcbh
      obtain ⟨hrs1, hcol1, hcrr1⟩ := hcrr
      by_cases hb1 : f1.data.color = Color.black
      · rw [insertFix_pblack idHook f1 c1 n hb1] at heq
        obtain ⟨rfl, rfl⟩ : plug (f1 :: c1) n = t' ∧ [] = evs := by simpa using heq
        constructor
        · refine plugRR (f1 :: c1) n ⟨hrs1, hcol1, hcrr1⟩ hrn ?_
          intro hh
          rw [headRed, hb1] at hh
          exact absurd hh (by simp)
        · obtain ⟨H, hH⟩ := plugBH (f1 :: c1) n h ⟨hbs1, hcbh1⟩ hbn
          simp [hH]
      · have hred : f1.data.color = Color.red := by
          cases hcc : f1.data.color
          · rfl
          · exact absurd hcc hb1
        rw [hred, colorBit_red] at hcbh1
        match c1, hcbh1, hcrr1 with
        | [], _, _ =>
          rw [insertFix_rootP idHook f1 n hred] at heq
          obtain ⟨rfl, rfl⟩ := by simpa using heq
          constructor
          · refine noRR_frameFill (f := ⟨f1.d, _, f1.sib⟩) hrs1 hrn ?_
            intro hcc
            exact absurd hcc (by simp)
          · have := bhOf_frameFill (f := ⟨f1.d, ⟨f1.data.id, f1.data.key, f1.data.value,
              Color.black⟩, f1.sib⟩) (s := n) hbs1 hbn
            simp [this]
        | ⟨d2, G, U⟩ :: c2, ⟨hbU, hcbh2⟩, ⟨hrU, hcolG, hcrr2⟩ =>
          have hGblack : G.color = Color.black := (hcol1 hred).2
          rw [hGblack, colorBit_black] at hcbh2
          obtain ⟨nd, nl, nr, rfl, hndred⟩ := hnode
          obtain ⟨hc0, hbnl, hbnr, hh0⟩ := bhOf_node_inv hbn
          rw [hndred, colorBit_red] at hh0
          simp only [Nat.add_zero] at hh0
          subst hh0
          obtain ⟨hrnl, hrnr, hncol⟩ := noRR_node_iff.mp hrn
          obtain ⟨hbnl2, hbnr2⟩ := hncol hndred
          by_cases hu : isBlackOrNil U = true
          · obtain ⟨d1, P, ps⟩ := f1
            simp only at hred hbs1 hrs1 hcol1 ⊢
            have hpsB : isBlackOrNil ps = true := (hcol1 hred).1
            cases d1 with
            | left =>
              cases d2 with
              | left =>
                rw [insertFix_linear_left P G ps U _ c2 nd nl nr rfl hred hu] at heq
                obtain ⟨rfl, rfl⟩ := by simpa using heq
                have hbin : bhOf (ATree.node (⟨G.id, G.key, G.value, Color.red⟩ :
                    NodeData K V) ps U) = some h := by
                  have := bhOf_node_build (l := ps) (r := U)
                    (⟨G.id, G.key, G.value, Color.red⟩ : NodeData K V) hbs1 hbU
                  simpa [colorBit] using this
                have hbR : bhOf (ATree.node (⟨P.id, P.key, P.value, Color.black⟩ :
                    NodeData K V) (ATree.node nd nl nr)
                    (ATree.node ⟨G.id, G.key, G.value, Color.red⟩ ps U)) = some (h + 1) := by
                  have := bhOf_node_build (⟨P.id, P.key, P.value, Color.black⟩ :
                    NodeData K V) hbn hbin
                  simpa [colorBit] using this
                have hrR : noRR (ATree.node (⟨P.id, P.key, P.value, Color.black⟩ :
                    NodeData K V) (ATree.node nd nl nr)
                    (ATree.node ⟨G.id, G.key, G.value, Color.red⟩ ps U)) = true := by
                  refine noRR_node_iff.mpr ⟨hrn, ?_, ?_⟩
                  · exact noRR_node_iff.mpr ⟨hrs1, hrU, fun _ => ⟨hpsB, hu⟩⟩
                  · intro hcc; exact absurd hcc (by simp)
                constructor
                · exact plugRR c2 _ hcrr2 hrR (fun _ => by simp [isBlackOrNil])
                · obtain ⟨H, hH⟩ := plugBH c2 _ (h + 1) hcbh2 hbR
                  simp [hH]
              | right =>
                rw [insertFix_zigzag_right P G nd ps U nl nr c2 hred hu] at heq
                obtain ⟨rfl, rfl⟩ := by simpa using heq
                have hbin1 : bhOf (ATree.node (⟨G.id, G.key, G.value, Color.red⟩ :
                    NodeData K V) U nl) = some h := by
                  have := bhOf_node_build (⟨G.id, G.key, G.value, Color.red⟩ :
                    NodeData K V) hbU hbnl
                  simpa [colorBit] using this
                have hbin2 : bhOf (ATree.node P nr ps) = some h := by
                  have := bhOf_node_build P hbnr hbs1
                  rw [hred] at this
                  simpa [colorBit] using this
                have hbR : bhOf (ATree.node (⟨nd.id, nd.key, nd.value, Color.black⟩ :
                    NodeData K V) (ATree.node ⟨G.id, G.key, G.value, Color.red⟩ U nl)
                    (ATree.node P nr ps)) = some (h + 1) := by
                  have := bhOf_node_build (⟨nd.id, nd.key, nd.value, Color.black⟩ :
                    NodeData K V) hbin1 hbin2
                  simpa [colorBit] using this
                have hrR : noRR (ATree.node (⟨nd.id, nd.key, nd.value, Color.black⟩ :
                    NodeData K V) (ATree.node ⟨G.id, G.key, G.value, Color.red⟩ U nl)
                    (ATree.node P nr ps)) = true := by
                  refine noRR_node_iff.mpr ⟨?_, ?_, ?_⟩
                  · exact noRR_node_iff.mpr ⟨hrU, hrnl, fun _ => ⟨hu, hbnl2⟩⟩
                  · exact noRR_node_iff.mpr ⟨hrnr, hrs1, fun _ => ⟨hbnr2, hpsB⟩⟩
                  · intro hcc; exact absurd hcc (by simp)
                constructor
                · exact plugRR c2 _ hcrr2 hrR (fun _ => by simp [isBlackOrNil])
                · obtain ⟨H, hH⟩ := plugBH c2 _ (h + 1) hcbh2 hbR
                  simp [hH]
            | right =>
              cases d2 with
              | left =>
                rw [insertFix_zigzag_left P G nd ps U nl nr c2 hred hu] at heq
                obtain ⟨rfl, rfl⟩ := by simpa using heq
                have hbin1 : bhOf (ATree.node P ps nl) = some h := by
                  have := bhOf_node_build P hbs1 hbnl
                  rw [hred] at this
                  simpa [colorBit] using this
                have hbin2 : bhOf (ATree.node (⟨G.id, G.key, G.value, Color.red⟩ :
                    NodeData K V) nr U) = some h := by
                  have := bhOf_node_build (⟨G.id, G.key, G.value, Color.red⟩ :
                    NodeData K V) hbnr hbU
                  simpa [colorBit] using this
                have hbR : bhOf (ATree.node (⟨nd.id, nd.key, nd.value, Color.black⟩ :
                    NodeData K V) (ATree.node P ps nl)
                    (ATree.node ⟨G.id, G.key, G.value, Color.red⟩ nr U)) = some (h + 1) := by
                  have := bhOf_node_build (⟨nd.id, nd.key, nd.value, Color.black⟩ :
                    NodeData K V) hbin1 hbin2
                  simpa [colorBit] using this
                have hrR : noRR (ATree.node (⟨nd.id, nd.key, nd.value, Color.black⟩ :
                    NodeData K V) (ATree.node P ps nl)
                    (ATree.node ⟨G.id, G.key, G.value, Color.red⟩ nr U)) = true := by
                  refine noRR_node_iff.mpr ⟨?_, ?_, ?_⟩
                  · exact noRR_node_iff.mpr ⟨hrs1, hrnl, fun _ => ⟨hpsB, hbnl2⟩⟩
                  · exact noRR_node_iff.mpr ⟨hrnr, hrU, fun _ => ⟨hbnr2, hu⟩⟩
                  · intro hcc; exact absurd hcc (by simp)
                constructor
                · exact plugRR c2 _ hcrr2 hrR (fun _ => by simp [isBlackOrNil])
                · obtain ⟨H, hH⟩ := plugBH c2 _ (h + 1) hcbh2 hbR
                  simp [hH]
              | right =>
                rw [insertFix_linear_right P G ps U _ c2 nd nl nr rfl hred hu] at heq
                obtain ⟨rfl, rfl⟩ := by simpa using heq
                have hbin : bhOf (ATree.node (⟨G.id, G.key, G.value, Color.red⟩ :
                    NodeData K V) U ps) = some h := by
                  have := bhOf_node_build (⟨G.id, G.key, G.value, Color.red⟩ :
                    NodeData K V) hbU hbs1
                  simpa [colorBit] using this
                have hbR : bhOf (ATree.node (⟨P.id, P.key, P.value, Color.black⟩ :
                    NodeData K V) (ATree.node ⟨G.id, G.key, G.value, Color.red⟩ U ps)
                    (ATree.node nd nl nr)) = some (h + 1) := by
                  have := bhOf_node_build (⟨P.id, P.key, P.value, Color.black⟩ :
                    NodeData K V) hbin hbn
                  simpa [colorBit] using this
                have hrR : noRR (ATree.node (⟨P.id, P.key, P.value, Color.black⟩ :
                    NodeData K V) (ATree.node ⟨G.id, G.key, G.value, Color.red⟩ U ps)
                    (ATree.node nd nl nr)) = true := by
                  refine noRR_node_iff.mpr ⟨?_, hrn, ?_⟩
                  · exact noRR_node_iff.mpr ⟨hrU, hrs1, fun _ => ⟨hu, hpsB⟩⟩
                  · intro hcc; exact absurd hcc (by simp)
                constructor
                · exact plugRR c2 _ hcrr2 hrR (fun _ => by simp [isBlackOrNil])
                · obtain ⟨H, hH⟩ := plugBH c2 _ (h + 1) hcbh2 hbR
                  simp [hH]
          · have hu' : isBlackOrNil U = false := by
              cases hcc : isBlackOrNil U
              · rfl
              · exact absurd hcc hu
            obtain ⟨Ud, Ul, Ur, rfl, hUdred⟩ := isBlackOrNil_false_red hu'
            rw [insertFix_uncleRed idHook f1 d2 G (ATree.node Ud Ul Ur) c2 _ hred hu'] at heq
            have hbF1 : bhOf (frameFill ⟨f1.d, ⟨f1.data.id, f1.data.key, f1.data.value,
                Color.black⟩, f1.sib⟩ (ATree.node nd nl nr)) = some (h + 1) := by
              have := bhOf_frameFill (f := ⟨f1.d, ⟨f1.data.id, f1.data.key, f1.data.value,
                Color.black⟩, f1.sib⟩) (s := ATree.node nd nl nr) hbs1 hbn
              simpa [colorBit] using this
            have hrF1 : noRR (frameFill ⟨f1.d, ⟨f1.data.id, f1.data.key, f1.data.value,
                Color.black⟩, f1.sib⟩ (ATree.node nd nl nr)) = true := by
              refine noRR_frameFill hrs1 hrn ?_
              intro hcc; exact absurd hcc (by simp)
            have hbU' : bhOf (setRootColor (ATree.node Ud Ul Ur) Color.black) =
                some (h + 1) := by
              rw [setRootColor_node]
              exact bhOf_setBlack_of_red hbU hUdred
            have hrU' : noRR (setRootColor (ATree.node Ud Ul Ur) Color.black) = true := by
              rw [setRootColor_node]
              exact noRR_setBlack hrU
            have hbn' : bhOf (frameFill ⟨d2, ⟨G.id, G.key, G.value, Color.red⟩,
                setRootColor (ATree.node Ud Ul Ur) Color.black⟩
                (frameFill ⟨f1.d, ⟨f1.data.id, f1.data.key, f1.data.value, Color.black⟩,
                  f1.sib⟩ (ATree.node nd nl nr))) = some (h + 1) := by
              have := bhOf_frameFill (f := ⟨d2, ⟨G.id, G.key, G.value, Color.red⟩,
                setRootColor (ATree.node Ud Ul Ur) Color.black⟩) hbU' hbF1
              simpa [colorBit] using this
            have hrn' : noRR (frameFill ⟨d2, ⟨G.id, G.key, G.value, Color.red⟩,
                setRootColor (ATree.node Ud Ul Ur) Color.black⟩
                (frameFill ⟨f1.d, ⟨f1.data.id, f1.data.key, f1.data.value, Color.black⟩,
                  f1.sib⟩ (ATree.node nd nl nr))) = true := by
              refine noRR_frameFill hrU' hrF1 ?_
              intro _
              constructor
              · rw [setRootColor_node, isBlackOrNil]
                simp
              · rw [isBlackOrNil_frameFill]
                simp
            refine ih c2 _ (h + 1) ?_ hcbh2 hcrr2 hbn' hrn' ?_ t' evs heq
            · have : (f1 :: (⟨d2, G, ATree.node Ud Ul Ur⟩ : Frame K V) :: c2).length ≤
                  N + 1 := hlen
              simp only [List.length_cons] at this ⊢
              omega
            · cases hd2 : d2 with
              | left =>
                refine ⟨⟨G.id, G.key, G.value, Color.red⟩,
                  frameFill ⟨f1.d, ⟨f1.data.id, f1.data.key, f1.data.value, Color.black⟩,
                    f1.sib⟩ (ATree.node nd nl nr),
                  setRootColor (ATree.node Ud Ul Ur) Color.black, ?_, rfl⟩
                simp [frameFill]
              | right =>
                refine ⟨⟨G.id, G.key, G.value, Color.red⟩,
                  setRootColor (ATree.node Ud Ul Ur) Color.black,
                  frameFill ⟨f1.d, ⟨f1.data.id, f1.data.key, f1.data.value, Color.black⟩,
                    f1.sib⟩ (ATree.node nd nl nr), ?_, rfl⟩
                simp [frameFill]

end RB

namespace RB

variable {K V : Type}

theorem bhOf_valueChange (dat : NodeData K V) (v : V) (l r : ATree K V) :
    bhOf (ATree.node ⟨dat.id, dat.key, v, dat.color⟩ l r) =
      bhOf (ATree.node dat l r) := rfl

theorem noRR_valueChange (dat : NodeData K V) (v : V) (l r : ATree K V) :
    noRR (ATree.node ⟨dat.id, dat.key, v, dat.color⟩ l r) =
      noRR (ATree.node dat l r) := rfl

theorem childOf_nil_bh {dat : NodeData K V} {l r : ATree K V} {h0 : Nat} (dir : Dir)
    (hb : bhOf (ATree.node dat l r) = some h0)
    (hnil : childOf (ATree.node dat l r) dir = ATree.nil) :
    bhOf l = some 0 ∧ bhOf r = some 0 ∧ h0 = colorBit dat.color ∧
      bhOf (childOf (ATree.node dat l r) dir.flip) = some 0 := by
  obtain ⟨hc, hl, hr, rfl⟩ := bhOf_node_inv hb
  cases dir with
  | left =>
    rw [childOf] at hnil
    subst hnil
    rw [bhOf] at hl
    injection hl with hl
    subst hl
    exact ⟨by rw [bhOf], hr, by simp, by simpa [childOf, Dir.flip]⟩
  | right =>
    rw [childOf] at hnil
    subst hnil
    rw [bhOf] at hr
    injection hr with hr
    subst hr
    exact ⟨hl, by rw [bhOf], by simp, by simpa [childOf, Dir.flip]⟩

theorem Insert_rb {cmp : K → K → Int} {t : RBTree K V}
    (hb : (bhOf t.Root).isSome = true) (hr : noRR t.Root = true)
    {k : K} {v : V} {t' : RBTree K V} {nid : Nat} {evs : List Event}
    (h : Insert idHook cmp t k v = some (t', nid, evs)) :
    noRR t'.Root = true ∧ (bhOf t'.Root).isSome = true := by
  obtain ⟨rt, i⟩ := t
  cases hroot : rt with
  | nil =>
    subst hroot
    rw [Insert_nilRoot idHook cmp i k v] at h
    obtain ⟨rfl, -, -⟩ : (⟨ATree.node ⟨i, k, v, Color.red⟩ ATree.nil ATree.nil, i + 1⟩ :
        RBTree K V) = t' ∧ i = nid ∧ [] = evs := by simpa using h
    constructor
    · simp [noRR, isBlackOrNil]
    · simp [bhOf]
  | node rdat rl rr =>
    subst hroot
    simp only at hb hr
    rcases hBM : bhOf (ATree.node rdat rl rr) with _ | H
    · rw [hBM] at hb; simp at hb
    · obtain ⟨p, fnd, dir, hs⟩ :=
        @SearchLoop_some K V cmp k (ATree.node rdat rl rr) [] Dir.left (by simp)
      have hs' : Search cmp (ATree.node rdat rl rr) k = (some p, fnd, dir) := hs
      obtain ⟨c, dat, l, r, hsp, hnilf⟩ := Search_split (t := ATree.node rdat rl rr) hs'
      obtain ⟨h0, hcbh, hcrr, hbs0, hrs0, hhead⟩ := splitAt_inv_rb hBM hr p c _ hsp
      cases fnd with
      | true =>
        rw [Insert_foundCase idHook v hs' hsp] at h
        have ht := congrArg Prod.fst (Option.some.inj h)
        dsimp only at ht
        subst ht
        simp only
        constructor
        · refine plugRR c _ hcrr ?_ ?_
          · rw [noRR_valueChange]; exact hrs0
          · intro hh
            have := hhead hh
            rw [isBlackOrNil] at this ⊢
            simpa using this
        · obtain ⟨H2, hH2⟩ := plugBH c
            (ATree.node ⟨dat.id, dat.key, v, dat.color⟩ l r) h0 hcbh
            (by rw [bhOf_valueChange]; exact hbs0)
          simp [hH2]
      | false =>
        have hnil := hnilf rfl
        rcases hfix : insertFix idHook
            (⟨dir, dat, childOf (ATree.node dat l r) dir.flip⟩ :: c)
            (ATree.node ⟨i, k, v, Color.red⟩ ATree.nil ATree.nil) with _ | ⟨tf, evsf⟩
        · rw [Insert_newCase_noneFix idHook v hs' hsp hfix] at h
          simp at h
        · rw [Insert_newCase idHook v hs' hsp hfix] at h
          have ht := congrArg Prod.fst (Option.some.inj h)
          dsimp only at ht
          subst ht
          simp only
          obtain ⟨hbl, hbr, hh0, hbsib⟩ := childOf_nil_bh dir hbs0 hnil
          obtain ⟨hrl, hrr, hcol⟩ := noRR_node_iff.mp hrs0
          have hrsib : noRR (childOf (ATree.node dat l r) dir.flip) = true := by
            cases dir <;> simpa [childOf, Dir.flip]
          refine insertFix_rb_aux (⟨dir, dat, childOf (ATree.node dat l r) dir.flip⟩ :: c).length
            (⟨dir, dat, childOf (ATree.node dat l r) dir.flip⟩ :: c) _ 0 le_rfl
            ⟨hbsib, ?_⟩ ⟨hrsib, ?_, hcrr⟩ (by simp [bhOf, colorBit]) (by simp [noRR, isBlackOrNil])
            ⟨⟨i, k, v, Color.red⟩, ATree.nil, ATree.nil, rfl, rfl⟩ tf evsf hfix
          · rw [hh0] at hcbh
            simpa using hcbh
          · intro hdred
            constructor
            · refine childOf_blackOrNil dir.flip (hcol hdred).1 (hcol hdred).2
            · refine headBlack_of_not_headRed ?_
              intro hhr
              have := hhead hhr
              rw [isBlackOrNil, hdred] at this
              exact absurd this (by simp)

theorem foldInsert_rb {cmp : K → K → Int} :
    ∀ (ops : List (K × V)) (t : RBTree K V),
    noRR t.Root = true → (bhOf t.Root).isSome = true →
    ∃ t', foldInsert idHook cmp t ops = some t' ∧
      noRR t'.Root = true ∧ (bhOf t'.Root).isSome = true
  | [], t, h1, h2 => ⟨t, rfl, h1, h2⟩
  | (k, v) :: ops, t, h1, h2 => by
    obtain ⟨⟨t2, nid, evs⟩, hins⟩ := Insert_total cmp t k v
    obtain ⟨h1', h2'⟩ := Insert_rb h2 h1 hins
    obtain ⟨t', hfold, hh⟩ := foldInsert_rb ops t2 h1' h2'
    refine ⟨t', ?_, hh⟩
    rw [foldInsert, hins]
    exact hfold

end RB

namespace Claims

open RB

/-- C4: after every sequence of `Insert` operations starting from the
empty tree (with any comparator — the fixup's decisions depend only on
colors and shape), no two adjacent nodes are both red, and every node's
paths down to its absent-child positions all pass through the same
number of black nodes (`bhOf` is defined at every node). -/
theorem C4_no_red_red_and_uniform_black_height (K V : Type)
    (cmp : K → K → Int) (ops : List (K × V)) :
    ∃ t, foldInsert idHook cmp (emptyT (K := K) (V := V)) ops = some t ∧
      noRR t.Root = true ∧ (bhOf t.Root).isSome = true :=
  foldInsert_rb ops emptyT rfl rfl

end Claims

namespace RB

variable {K V : Type}

theorem loOK_trans {cmp : K → K → Int} (hl : LawfulCmp cmp) {lo : Option K} {a b : K}
    (h1 : loOK cmp lo a) (h2 : cmp a b = -1) : loOK cmp lo b := by
  cases lo with
  | none => trivial
  | some x => exact hl.lt_trans x a b h1 h2

theorem hiOK_trans {cmp : K → K → Int} (hl : LawfulCmp cmp) {hi : Option K} {a b : K}
    (h1 : cmp a b = -1) (h2 : hiOK cmp b hi) : hiOK cmp a hi := by
  cases hi with
  | none => trivial
  | some x => exact hl.lt_trans a b x h1 h2

theorem plugOrd {cmp : K → K → Int} :
    ∀ (c : Ctx K V) (lo0 hi0 lo hi : Option K) (s : ATree K V),
    ctxOrdB cmp c lo0 hi0 lo hi → OrdIn cmp lo hi s → OrdIn cmp lo0 hi0 (plug c s)
  | [], lo0, hi0, lo, hi, s, hc, hs => by
    obtain ⟨rfl, rfl⟩ := hc
    exact hs
  | f :: c, lo0, hi0, lo, hi, s, hc, hs => by
    obtain ⟨lo', hi', hrest, hlo, hhi, hdir⟩ := hc
    refine plugOrd c lo0 hi0 lo' hi' (frameFill f s) hrest ?_
    cases hd : f.d with
    | left =>
      rw [hd] at hdir
      obtain ⟨rfl, rfl, hsib⟩ := hdir
      have : frameFill f s = ATree.node f.data s f.sib := by simp [frameFill, hd]
      rw [this]
      exact ⟨hlo, hhi, hs, hsib⟩
    | right =>
      rw [hd] at hdir
      obtain ⟨rfl, rfl, hsib⟩ := hdir
      have : frameFill f s = ATree.node f.data f.sib s := by simp [frameFill, hd]
      rw [this]
      exact ⟨hlo, hhi, hsib, hs⟩

theorem OrdIn_keys {cmp : K → K → Int} (hl : LawfulCmp cmp) :
    ∀ {t : ATree K V} {lo hi : Option K}, OrdIn cmp lo hi t →
    ∀ k2 ∈ keysOf t, loOK cmp lo k2 ∧ hiOK cmp k2 hi := by
  intro t
  induction t with
  | nil => intro lo hi _ k2 hk; simp [keysOf] at hk
  | node dat l r ihl ihr =>
    intro lo hi ho k2 hk
    obtain ⟨hlo, hhi, hol, hor⟩ := ho
    rw [keysOf] at hk
    rcases List.mem_append.mp hk with hk | hk
    · obtain ⟨h1, h2⟩ := ihl hol k2 hk
      exact ⟨h1, hiOK_trans hl h2 hhi⟩
    · rcases List.mem_cons.mp hk with rfl | hk
      · exact ⟨hlo, hhi⟩
      · obtain ⟨h1, h2⟩ := ihr hor k2 hk
        exact ⟨loOK_trans hl hlo h1, h2⟩

theorem orderedB_of_OrdIn {cmp : K → K → Int} (hl : LawfulCmp cmp) :
    ∀ {t : ATree K V} {lo hi : Option K}, OrdIn cmp lo hi t → orderedB cmp t = true := by
  intro t
  induction t with
  | nil => intro lo hi _; rfl
  | node dat l r ihl ihr =>
    intro lo hi ho
    obtain ⟨hlo, hhi, hol, hor⟩ := ho
    rw [orderedB]
    simp only [Bool.and_eq_true, List.all_eq_true]
    refine ⟨⟨⟨?_, ?_⟩, ihl hol⟩, ihr hor⟩
    · intro k2 hk2
      simp only [decide_eq_true_eq]
      exact (OrdIn_keys hl hol k2 hk2).2
    · intro k2 hk2
      simp only [decide_eq_true_eq]
      exact (hl.asymm dat.key k2).mp (OrdIn_keys hl hor k2 hk2).1

end RB

/-- The Go `Int.Compare` is a lawful three-way comparator. -/
theorem lawful_cmpInt : RB.LawfulCmp cmpInt := by
  constructor
  · intro a b; unfold cmpInt; split_ifs <;> simp
  · intro a b; unfold cmpInt; split_ifs <;> simp <;> omega
  · intro a b; unfold cmpInt; split_ifs <;> simp <;> omega
  · intro a b c; unfold cmpInt; split_ifs <;> simp <;> omega

namespace RB

variable {K V : Type}

theorem SearchLoop_ord {cmp : K → K → Int} (hl : LawfulCmp cmp) {k : K} {t : ATree K V} :
    ∀ (x : ATree K V) (p0 : List Dir) (dir0 : Dir) (cx : Ctx K V) (lo hi : Option K),
    splitAt t p0 = some (cx, x) →
    ctxOrdB cmp cx none none lo hi →
    OrdIn cmp lo hi x →
    loOK cmp lo k → hiOK cmp k hi →
    (∀ k2 ∈ keysOf t, k2 ∈ keysOf x ∨ cmp k k2 ≠ 0) →
    ∀ p fnd dir, SearchLoop cmp k x p0 dir0 = (some p, fnd, dir) →
    (fnd = true → ∃ c dat l r lo2 hi2,
        splitAt t p = some (c, ATree.node dat l r) ∧ cmp k dat.key = 0 ∧
        ctxOrdB cmp c none none lo2 hi2 ∧ OrdIn cmp lo2 hi2 (ATree.node dat l r)) ∧
    (fnd = false → (∀ k2 ∈ keysOf t, cmp k k2 ≠ 0) ∧
      ∃ c dat l r lo2 hi2, splitAt t p = some (c, ATree.node dat l r) ∧
        childOf (ATree.node dat l r) dir = ATree.nil ∧
        ctxOrdB cmp (⟨dir, dat, childOf (ATree.node dat l r) dir.flip⟩ :: c)
          none none lo2 hi2 ∧
        loOK cmp lo2 k ∧ hiOK cmp k hi2)
  | ATree.nil, p0, dir0, cx, lo, hi => by
    intro hsp hctx hord hlok hhik houts p fnd dir hs
    simp [SearchLoop] at hs
  | ATree.node dat l r, p0, dir0, cx, lo, hi => by
    intro hsp hctx hord hlok hhik houts p fnd dir hs
    obtain ⟨hOlo, hOhi, hOl, hOr⟩ := hord
    rw [SearchLoop.eq_def] at hs
    by_cases h0 : cmp k dat.key = 0
    · simp only [h0, if_true] at hs
      obtain ⟨rfl, rfl, rfl⟩ := by simpa using hs
      refine ⟨fun _ => ⟨cx, dat, l, r, lo, hi, hsp, h0, hctx, ⟨hOlo, hOhi, hOl, hOr⟩⟩,
        fun hff => absurd hff (by simp)⟩
    · by_cases hm : cmp k dat.key = -1
      · simp only [h0, hm, if_false, if_true] at hs
        have houts' : ∀ k2 ∈ keysOf t, k2 ∈ keysOf l ∨ cmp k k2 ≠ 0 := by
          intro k2 hk2
          rcases houts k2 hk2 with hin | hne
          · rw [keysOf] at hin
            rcases List.mem_append.mp hin with hin | hin
            · exact Or.inl hin
            · rcases List.mem_cons.mp hin with rfl | hin
              · exact Or.inr (by rw [hm]; simp)
              · refine Or.inr ?_
                have := (OrdIn_keys hl hOr k2 hin).1
                have := hl.lt_trans k dat.key k2 hm this
                rw [this]; simp
          · exact Or.inr hne
        cases l with
        | nil =>
          obtain ⟨rfl, rfl, rfl⟩ := by simpa using hs
          refine ⟨fun htf => absurd htf (by simp), fun _ => ⟨?_, ?_⟩⟩
          · intro k2 hk2
            rcases houts' k2 hk2 with hin | hne
            · simp [keysOf] at hin
            · exact hne
          · refine ⟨cx, dat, ATree.nil, r, lo, some dat.key, hsp, by simp [childOf], ?_, hlok, hm⟩
            exact ⟨lo, hi, hctx, hOlo, hOhi, rfl, rfl,
              by simpa [childOf, Dir.flip] using hOr⟩
        | node d2 l2 r2 =>
          have hsp2 : splitAt t (p0 ++ [Dir.left]) =
              some (⟨Dir.left, dat, r⟩ :: cx, ATree.node d2 l2 r2) := by
            rw [splitAt_snoc_some (t := t) Dir.left hsp]
            simp [childOf, Dir.flip]
          refine SearchLoop_ord hl (ATree.node d2 l2 r2) (p0 ++ [Dir.left]) Dir.left
            (⟨Dir.left, dat, r⟩ :: cx) lo (some dat.key) hsp2
            ⟨lo, hi, hctx, hOlo, hOhi, rfl, rfl, hOr⟩ hOl hlok hm houts' p fnd dir hs
      · by_cases hp1 : cmp k dat.key = 1
        · simp only [h0, hm, hp1, if_false, if_true] at hs
          have hrev : cmp dat.key k = -1 := (hl.asymm dat.key k).mpr hp1
          have houts' : ∀ k2 ∈ keysOf t, k2 ∈ keysOf r ∨ cmp k k2 ≠ 0 := by
            intro k2 hk2
            rcases houts k2 hk2 with hin | hne
            · rw [keysOf] at hin
              rcases List.mem_append.mp hin with hin | hin
              · refine Or.inr ?_
                have h2 := (OrdIn_keys hl hOl k2 hin).2
                have h3 := (hl.asymm k2 k).mp (hl.lt_trans k2 dat.key k h2 hrev)
                intro hc
                rw [(hl.eq_zero k k2).mp hc] at h3
                rw [(hl.eq_zero k2 k2).mpr rfl] at h3
                exact absurd h3 (by simp)
              · rcases List.mem_cons.mp hin with rfl | hin
                · exact Or.inr (by rw [hp1]; simp)
                · exact Or.inl hin
            · exact Or.inr hne
          cases r with
          | nil =>
            obtain ⟨rfl, rfl, rfl⟩ := by simpa using hs
            refine ⟨fun htf => absurd htf (by simp), fun _ => ⟨?_, ?_⟩⟩
            · intro k2 hk2
              rcases houts' k2 hk2 with hin | hne
              · simp [keysOf] at hin
              · exact hne
            · refine ⟨cx, dat, l, ATree.nil, some dat.key, hi, hsp, by simp [childOf], ?_,
                hrev, hhik⟩
              exact ⟨lo, hi, hctx, hOlo, hOhi, rfl, rfl,
                by simpa [childOf, Dir.flip] using hOl⟩
          | node d2 l2 r2 =>
            have hsp2 : splitAt t (p0 ++ [Dir.right]) =
                some (⟨Dir.right, dat, l⟩ :: cx, ATree.node d2 l2 r2) := by
              rw [splitAt_snoc_some (t := t) Dir.right hsp]
              simp [childOf, Dir.flip]
            refine SearchLoop_ord hl (ATree.node d2 l2 r2) (p0 ++ [Dir.right]) Dir.right
              (⟨Dir.right, dat, l⟩ :: cx) (some dat.key) hi hsp2
              ⟨lo, hi, hctx, hOlo, hOhi, rfl, rfl, hOl⟩ hOr hrev hhik houts' p fnd dir hs
        · rcases hl.range k dat.key with hc | hc | hc
          · exact absurd hc hm
          · exact absurd hc h0
          · exact absurd hc hp1

end RB

namespace RB

variable {K V : Type}

theorem OrdIn_setRootColor {cmp : K → K → Int} {a b : Option K} {U : ATree K V}
    {col : Color} (h : OrdIn cmp a b U) : OrdIn cmp a b (setRootColor U col) := by
  cases U with
  | nil => exact h
  | node dat l r => exact h

theorem insertFix_ord_aux {cmp : K → K → Int} (hl : LawfulCmp cmp) :
    ∀ (N : Nat) (c : Ctx K V) (n : ATree K V) (lo hi : Option K),
    c.length ≤ N →
    ctxOrdB cmp c none none lo hi → OrdIn cmp lo hi n →
    (∃ nd nl nr, n = ATree.node nd nl nr) →
    ∀ t' evs, insertFix idHook c n = some (t', evs) →
    OrdIn cmp none none t' := by
  intro N
  induction N with
  | zero =>
    intro c n lo hi hlen hctx hord hnode t' evs heq
    have hc0 := List.length_eq_zero.mp (Nat.le_zero.mp hlen)
    subst hc0
    obtain ⟨rfl, rfl⟩ : n = t' ∧ [] = evs := by simpa [insertFix] using heq
    obtain ⟨rfl, rfl⟩ := hctx
    exact hord
  | succ N ih =>
    intro c n lo hi hlen hctx hord hnode t' evs heq
    match c with
    | [] =>
      obtain ⟨rfl, rfl⟩ : n = t' ∧ [] = evs := by simpa [insertFix] using heq
      obtain ⟨rfl, rfl⟩ := hctx
      exact hord
    | f1 :: c1 =>
      by_cases hb1 : f1.data.color = Color.black
      · rw [insertFix_pblack idHook f1 c1 n hb1] at heq
        obtain ⟨rfl, rfl⟩ : plug (f1 :: c1) n = t' ∧ [] = evs := by simpa using heq
        exact plugOrd (f1 :: c1) none none lo hi n hctx hord
      · have hred : f1.data.color = Color.red := by
          cases hcc : f1.data.color
          · rfl
          · exact absurd hcc hb1
        obtain ⟨lo1, hi1, hctx1, hloP, hhiP, hdirP⟩ := hctx
        match c1, hctx1 with
        | [], hctx1 =>
          rw [insertFix_rootP idHook f1 n hred] at heq
          obtain ⟨rfl, rfl⟩ := by simpa using heq
          exact plugOrd [⟨f1.d, ⟨f1.data.id, f1.data.key, f1.data.value, Color.black⟩,
            f1.sib⟩] none none lo hi n ⟨lo1, hi1, hctx1, hloP, hhiP, hdirP⟩ hord
        | ⟨d2, G, U⟩ :: c2, ⟨lo2, hi2, hctx2, hloG, hhiG, hdirG⟩ =>
          by_cases hu : isBlackOrNil U = true
          · obtain ⟨d1, P, ps⟩ := f1
            simp only at hred hloP hhiP hdirP ⊢
            simp only at hloG hhiG hdirG
            obtain ⟨nd, nl, nr, rfl⟩ := hnode
            cases d1 with
            | left =>
              obtain ⟨rfl, rfl, hOps⟩ := hdirP
              cases d2 with
              | left =>
                obtain ⟨rfl, rfl, hOU⟩ := hdirG
                rw [insertFix_linear_left P G ps U _ c2 nd nl nr rfl hred hu] at heq
                obtain ⟨rfl, rfl⟩ := by simpa using heq
                refine plugOrd c2 none none _ _ _ hctx2 ?_
                exact ⟨hloP, hiOK_trans hl hhiP hhiG, hord, hhiP, hhiG, hOps, hOU⟩
              | right =>
                obtain ⟨rfl, rfl, hOU⟩ := hdirG
                obtain ⟨hnlo, hnhi, hOnl, hOnr⟩ := hord
                rw [insertFix_zigzag_right P G nd ps U nl nr c2 hred hu] at heq
                obtain ⟨rfl, rfl⟩ := by simpa using heq
                refine plugOrd c2 none none _ _ _ hctx2 ?_
                exact ⟨loOK_trans hl hloG hnlo, hiOK_trans hl hnhi hhiP,
                  ⟨hloG, hnlo, hOU, hOnl⟩, ⟨hnhi, hhiP, hOnr, hOps⟩⟩
            | right =>
              obtain ⟨rfl, rfl, hOps⟩ := hdirP
              cases d2 with
              | left =>
                obtain ⟨rfl, rfl, hOU⟩ := hdirG
                obtain ⟨hnlo, hnhi, hOnl, hOnr⟩ := hord
                rw [insertFix_zigzag_left P G nd ps U nl nr c2 hred hu] at heq
                obtain ⟨rfl, rfl⟩ := by simpa using heq
                refine plugOrd c2 none none _ _ _ hctx2 ?_
                exact ⟨loOK_trans hl hloP hnlo, hiOK_trans hl hnhi hhiG,
                  ⟨hloP, hnlo, hOps, hOnl⟩, ⟨hnhi, hhiG, hOnr, hOU⟩⟩
              | right =>
                obtain ⟨rfl, rfl, hOU⟩ := hdirG
                rw [insertFix_linear_right P G ps U _ c2 nd nl nr rfl hred hu] at heq
                obtain ⟨rfl, rfl⟩ := by simpa using heq
                refine plugOrd c2 none none _ _ _ hctx2 ?_
                exact ⟨loOK_trans hl hloG hloP, hhiP, ⟨hloG, hloP, hOU, hOps⟩, hord⟩
          · have hu' : isBlackOrNil U = false := by
              cases hcc : isBlackOrNil U
              · rfl
              · exact absurd hcc hu
            rw [insertFix_uncleRed idHook f1 d2 G U c2 n hred hu'] at heq
            refine ih c2 _ lo2 hi2 ?_ hctx2 ?_ ?_ t' evs heq
            · have : (f1 :: (⟨d2, G, U⟩ : Frame K V) :: c2).length ≤ N + 1 := hlen
              simp only [List.length_cons] at this ⊢
              omega
            · refine plugOrd
                [⟨f1.d, ⟨f1.data.id, f1.data.key, f1.data.value, Color.black⟩, f1.sib⟩,
                 ⟨d2, ⟨G.id, G.key, G.value, Color.red⟩, setRootColor U Color.black⟩]
                lo2 hi2 lo hi n ?_ hord
              refine ⟨lo1, hi1, ⟨lo2, hi2, ⟨rfl, rfl⟩, hloG, hhiG, ?_⟩, hloP, hhiP, ?_⟩
              · cases hd2 : d2 with
                | left =>
                  rw [hd2] at hdirG
                  exact ⟨hdirG.1, hdirG.2.1, OrdIn_setRootColor hdirG.2.2⟩
                | right =>
                  rw [hd2] at hdirG
                  exact ⟨hdirG.1, hdirG.2.1, OrdIn_setRootColor hdirG.2.2⟩
              · exact hdirP
            · cases hd2 : d2 with
              | left =>
                exact ⟨⟨G.id, G.key, G.value, Color.red⟩,
                  frameFill ⟨f1.d, ⟨f1.data.id, f1.data.key, f1.data.value, Color.black⟩,
                    f1.sib⟩ n,
                  setRootColor U Color.black, by simp [frameFill]⟩
              | right =>
                exact ⟨⟨G.id, G.key, G.value, Color.red⟩,
                  setRootColor U Color.black,
                  frameFill ⟨f1.d, ⟨f1.data.id, f1.data.key, f1.data.value, Color.black⟩,
                    f1.sib⟩ n, by simp [frameFill]⟩

end RB

namespace RB

variable {K V : Type}

theorem Insert_ord {cmp : K → K → Int} (hl : LawfulCmp cmp) (t : RBTree K V)
    (ho : OrdIn cmp none none t.Root) (k : K) (v : V) :
    ∀ t' i evs, Insert idHook cmp t k v = some (t', i, evs) →
    OrdIn cmp none none t'.Root := by
  intro t' i evs heq
  obtain ⟨rt, i0⟩ := t
  cases hr : rt with
  | nil =>
    subst hr
    rw [Insert_nilRoot idHook cmp i0 k v] at heq
    simp only [Option.some.injEq, Prod.mk.injEq] at heq
    obtain ⟨rfl, -, -⟩ := heq
    exact ⟨trivial, trivial, trivial, trivial⟩
  | node rdat rl rr =>
    subst hr
    obtain ⟨p, fnd, dir, hs⟩ :=
      @SearchLoop_some K V cmp k (ATree.node rdat rl rr) [] Dir.left (by simp)
    have hs' : Search cmp (ATree.node rdat rl rr) k = (some p, fnd, dir) := hs
    have hsord := SearchLoop_ord hl (ATree.node rdat rl rr) [] Dir.left [] none none
      (by simp [splitAt]) ⟨rfl, rfl⟩ ho trivial trivial
      (fun k2 hk2 => Or.inl hk2) p fnd dir hs
    cases fnd with
    | true =>
      obtain ⟨c, dat, l, r, lo2, hi2, hsp, hk0, hctx, hord⟩ := hsord.1 rfl
      rw [Insert_foundCase idHook v hs' hsp] at heq
      simp only [Option.some.injEq, Prod.mk.injEq] at heq
      obtain ⟨rfl, -, -⟩ := heq
      obtain ⟨h1, h2, h3, h4⟩ := hord
      exact plugOrd c none none lo2 hi2 _ hctx ⟨h1, h2, h3, h4⟩
    | false =>
      obtain ⟨-, c, dat, l, r, lo2, hi2, hsp, hnilc, hctx, hlok, hhik⟩ := hsord.2 rfl
      obtain ⟨⟨tf, evsf⟩, hfix⟩ := insertFix_total
        (⟨dir, dat, childOf (ATree.node dat l r) dir.flip⟩ :: c)
        (ATree.node ⟨i0, k, v, Color.red⟩ ATree.nil ATree.nil) (by simp)
      rw [Insert_newCase idHook v hs' hsp hfix] at heq
      simp only [Option.some.injEq, Prod.mk.injEq] at heq
      obtain ⟨rfl, -, -⟩ := heq
      exact insertFix_ord_aux hl
        ((⟨dir, dat, childOf (ATree.node dat l r) dir.flip⟩ : Frame K V) :: c).length
        (⟨dir, dat, childOf (ATree.node dat l r) dir.flip⟩ :: c)
        (ATree.node ⟨i0, k, v, Color.red⟩ ATree.nil ATree.nil) lo2 hi2 le_rfl hctx
        ⟨hlok, hhik, trivial, trivial⟩ ⟨_, _, _, rfl⟩ tf evsf hfix

theorem foldInsert_ord {cmp : K → K → Int} (hl : LawfulCmp cmp) :
    ∀ (ops : List (K × V)) (t : RBTree K V), OrdIn cmp none none t.Root →
    ∀ t', foldInsert idHook cmp t ops = some t' → OrdIn cmp none none t'.Root := by
  intro ops
  induction ops with
  | nil =>
    intro t ho t' h
    obtain rfl : t = t' := by simpa [foldInsert] using h
    exact ho
  | cons op ops ih =>
    obtain ⟨k, v⟩ := op
    intro t ho t' h
    rw [foldInsert] at h
    obtain ⟨⟨t1, i1, evs1⟩, hins⟩ := Insert_total cmp t k v
    rw [hins] at h
    exact ih t1 (Insert_ord hl t ho k v t1 i1 evs1 hins) t' h

end RB

namespace RB

theorem cmp2_valid : ∀ a b : Int,
    (cmp2 a b < 0 ↔ a < b) ∧ (cmp2 a b = 0 ↔ a = b) ∧ (0 < cmp2 a b ↔ b < a) := by
  intro a b
  simp only [cmp2, cmpInt]
  split_ifs with h1 h2 <;> exact ⟨by omega, by omega, by omega⟩

end RB

namespace Claims

open RB

/-- C3 (counterexample): `cmp2` orders `Int` correctly in the sign-based
sense the spec requires of a comparator, yet inserting 5 and then 7
through it produces exactly the tree whose root holds key `5` with key
`7` as its LEFT child — a key that compares greater than the node's key
(`5 < 7`, and `0 < cmp2 7 5`) sits in the left subtree, violating the
binary-search-tree ordering invariant.  The `Search` switch matches only
the literals `-1`/`0`/`1`; `cmp2 7 5 = 2` hits no case, so the stale
initial direction `left` falls through. -/
theorem C3_counterexample :
    (∀ a b : Int, (cmp2 a b < 0 ↔ a < b) ∧ (cmp2 a b = 0 ↔ a = b) ∧
      (0 < cmp2 a b ↔ b < a)) ∧
    foldInsert idHook cmp2 (emptyT (K := Int) (V := Unit)) [(5, ()), (7, ())] =
      some ⟨ATree.node ⟨0, 5, (), Color.black⟩
        (ATree.node ⟨1, 7, (), Color.red⟩ ATree.nil ATree.nil) ATree.nil, 2⟩ ∧
    (5 : Int) < 7 ∧ 0 < cmp2 7 5 :=
  ⟨cmp2_valid, by decide, by decide, by decide⟩

/-- C3 (amended): with a comparator returning exactly `-1`, `0` or `1`
and realizing a total order, every sequence of insertions from the empty
tree succeeds and after each insertion the binary-search-tree ordering
invariant holds: at every node all keys of the left subtree compare `-1`
against the node's key and all keys of the right subtree compare `1`. -/
theorem C3_bst_ordering (K V : Type) (cmp : K → K → Int) (hl : LawfulCmp cmp)
    (ops : List (K × V)) :
    ∃ t, foldInsert idHook cmp (emptyT (K := K) (V := V)) ops = some t ∧
      orderedB cmp t.Root = true := by
  obtain ⟨t, hfold, -, -⟩ := foldInsert_rb ops emptyT rfl rfl
  exact ⟨t, hfold, orderedB_of_OrdIn hl (foldInsert_ord hl ops emptyT trivial t hfold)⟩

/-- Witness for C3 at the integer comparator and the three-step insertion
sequence 2, 1, 3. -/
theorem C3_witness :
    ∃ t, foldInsert idHook cmpInt (emptyT (K := Int) (V := Unit))
        [(2, ()), (1, ()), (3, ())] = some t ∧
      orderedB cmpInt t.Root = true :=
  C3_bst_ordering Int Unit cmpInt lawful_cmpInt [(2, ()), (1, ()), (3, ())]

end Claims

namespace Claims

open RB

/-- C8 (counterexample): `cmp2` is a sign-valid total-order three-way
comparison, yet `Search` through it on the singleton tree holding key `5`
reports for `k = 7` the direction `left` — `cmp2 7 5 = 2` is matched by
none of the switch's literal cases, so the stale initial direction falls
through — although `7` compares greater than `5`, so linking it at the
returned slot breaks the ordering invariant. -/
theorem C8_counterexample :
    (∀ a b : Int, (cmp2 a b < 0 ↔ a < b) ∧ (cmp2 a b = 0 ↔ a = b) ∧
      (0 < cmp2 a b ↔ b < a)) ∧
    Search cmp2 (ATree.node ⟨0, (5 : Int), (), Color.black⟩ ATree.nil ATree.nil
      : ATree Int Unit) 7 = (some [], false, Dir.left) ∧
    0 < cmp2 7 5 ∧
    orderedB cmp2 (ATree.node ⟨0, (5 : Int), (), Color.black⟩
      (ATree.node ⟨1, 7, (), Color.red⟩ ATree.nil ATree.nil) ATree.nil
      : ATree Int Unit) = false :=
  ⟨cmp2_valid, by decide, by decide, by decide⟩

/-- C8 (amended): with a comparator returning exactly `-1`, `0` or `1`
(the only literals the Go `switch` matches) and an ordered tree, `Search`
is correct: on `found = true` the returned path addresses a node whose
key compares equal to `k`; on `found = false` no key in the tree compares
equal to `k`, the addressed would-be parent has an absent child in the
returned direction, and linking a node keyed `k` into that slot keeps the
whole tree ordered. -/
theorem C8_search_with_lawful_comparator (K V : Type) (cmp : K → K → Int)
    (hl : LawfulCmp cmp) (t : ATree K V) (ho : OrdIn cmp none none t)
    (k : K) (p : List Dir) (fnd : Bool) (dir : Dir)
    (hs : Search cmp t k = (some p, fnd, dir)) :
    (fnd = true → ∃ c dat l r, splitAt t p = some (c, ATree.node dat l r) ∧
        cmp k dat.key = 0) ∧
    (fnd = false → (∀ k2 ∈ keysOf t, cmp k k2 ≠ 0) ∧
      ∃ c dat l r, splitAt t p = some (c, ATree.node dat l r) ∧
        childOf (ATree.node dat l r) dir = ATree.nil ∧
        ∀ (i : Nat) (v : V), OrdIn cmp none none
          (plug (⟨dir, dat, childOf (ATree.node dat l r) dir.flip⟩ :: c)
            (ATree.node ⟨i, k, v, Color.red⟩ ATree.nil ATree.nil))) := by
  cases t with
  | nil => simp [Search] at hs
  | node rdat rl rr =>
    have hsord := SearchLoop_ord hl (ATree.node rdat rl rr) [] Dir.left [] none none
      (by simp [splitAt]) ⟨rfl, rfl⟩ ho trivial trivial
      (fun k2 hk2 => Or.inl hk2) p fnd dir hs
    refine ⟨fun hf => ?_, fun hf => ?_⟩
    · obtain ⟨c, dat, l, r, lo2, hi2, hsp, hk0, -, -⟩ := hsord.1 hf
      exact ⟨c, dat, l, r, hsp, hk0⟩
    · obtain ⟨hne, c, dat, l, r, lo2, hi2, hsp, hnil, hctx, hlok, hhik⟩ := hsord.2 hf
      refine ⟨hne, c, dat, l, r, hsp, hnil, fun i v => ?_⟩
      exact plugOrd _ none none lo2 hi2 _ hctx ⟨hlok, hhik, trivial, trivial⟩

/-- Witness for C8: `Search` with the integer comparator finds key `5` at
the root of the singleton tree holding `5`. -/
theorem C8_witness :
    (true = true → ∃ c dat l r,
        splitAt (ATree.node ⟨0, (5 : Int), (), Color.black⟩ ATree.nil ATree.nil
          : ATree Int Unit) [] = some (c, ATree.node dat l r) ∧
        cmpInt 5 dat.key = 0) ∧
    (true = false → (∀ k2 ∈ keysOf (ATree.node ⟨0, (5 : Int), (), Color.black⟩
          ATree.nil ATree.nil : ATree Int Unit), cmpInt 5 k2 ≠ 0) ∧
      ∃ c dat l r,
        splitAt (ATree.node ⟨0, (5 : Int), (), Color.black⟩ ATree.nil ATree.nil
          : ATree Int Unit) [] = some (c, ATree.node dat l r) ∧
        childOf (ATree.node dat l r) Dir.left = ATree.nil ∧
        ∀ (i : Nat) (v : Unit), OrdIn cmpInt none none
          (plug (⟨Dir.left, dat, childOf (ATree.node dat l r) Dir.left.flip⟩ :: c)
            (ATree.node ⟨i, 5, v, Color.red⟩ ATree.nil ATree.nil))) :=
  C8_search_with_lawful_comparator Int Unit cmpInt lawful_cmpInt
    (ATree.node ⟨0, 5, (), Color.black⟩ ATree.nil ATree.nil)
    ⟨trivial, trivial, trivial, trivial⟩ 5 [] true Dir.left (by decide)

end Claims
